import Mathlib

/-!
Verification development for the `Prepare_RTC_Stack_HyP3_v2` notebook
(asf-jupyter-notebooks).  The notebook is a linear pipeline over raster
files on disk: product fetching, polarization filtering, UTM coordinate
normalization (cells 47-51), duplicate-date merging (cells 59-63), a
duplicate-date verification step (cell 65) and finalization (cell 69).

Shallow embedding conventions:
  * file paths and filenames are lists of characters (`Str`);
  * the filesystem is a `List Str` of the raster file paths;
  * external CLI calls (`gdalwarp`, `gdal_merge.py`) are opaque operations
    whose success is a boolean parameter; the notebook never inspects it,
    and the embedding mirrors exactly which filesystem mutations happen
    around each call;
  * Python `str.split(sep)` is `splitOn`, `numpy.unique` is `npUnique`
    (sorted deduplication), dictionaries keyed by date are association
    structures realised through the candidate-date list.
-/

abbrev Str := List Char

def str (s : String) : Str := s.data

/-- Python `s.split(sep)` for a one-character separator: always returns at
least one (possibly empty) part, never drops empty parts. -/
def splitOn (c : Char) : Str → List Str
  | [] => [[]]
  | x :: xs =>
    if x = c then [] :: splitOn c xs
    else
      match splitOn c xs with
      | [] => [[x]]
      | t :: ts => (x :: t) :: ts

theorem splitOn_ne_nil (c : Char) (s : Str) : splitOn c s ≠ [] := by
  cases s with
  | nil => simp [splitOn]
  | cons x xs =>
    simp only [splitOn]
    split
    · simp
    · split
      · simp
      · simp

/-- `splitOn` over a separator-free prefix: the prefix is glued onto the
first part of the remainder's split. -/
theorem splitOn_append (c : Char) (a b : Str) (ha : c ∉ a) :
    splitOn c (a ++ b) = (splitOn c b).modifyHead (a ++ ·) := by
  induction a with
  | nil =>
    cases h : splitOn c b with
    | nil => exact absurd h (splitOn_ne_nil c b)
    | cons t ts => simp [List.modifyHead, h]
  | cons x a ih =>
    have hxc : x ≠ c := by
      intro h; exact ha (by simp [h])
    have ha' : c ∉ a := by
      intro h; exact ha (List.mem_cons_of_mem _ h)
    have hih := ih ha'
    cases h : splitOn c (a ++ b) with
    | nil => exact absurd h (splitOn_ne_nil c (a ++ b))
    | cons t ts =>
      rw [h] at hih
      cases hb : splitOn c b with
      | nil => exact absurd hb (splitOn_ne_nil c b)
      | cons u us =>
        rw [hb] at hih
        simp only [List.modifyHead] at hih
        have ht : t = a ++ u := (List.cons.injEq _ _ _ _ ▸ hih).1
        have hts : ts = us := (List.cons.injEq _ _ _ _ ▸ hih).2
        simp only [List.cons_append, splitOn, if_neg hxc, List.append_eq, h,
          List.modifyHead, ht, hts]

theorem splitOn_no_sep (c : Char) (a : Str) (ha : c ∉ a) :
    splitOn c a = [a] := by
  have := splitOn_append c a [] ha
  simpa [splitOn] using this

theorem splitOn_sep_append (c : Char) (a b : Str) (ha : c ∉ a) :
    splitOn c (a ++ c :: b) = a :: splitOn c b := by
  have h1 : a ++ c :: b = a ++ [c] ++ b := by simp
  rw [h1]
  have h2 : splitOn c ([c] ++ b) = [] :: splitOn c b := by
    simp [splitOn]
  rw [List.append_assoc, splitOn_append c a ([c] ++ b) ha, h2]
  simp [List.modifyHead]

/-- A date-time token starts here: eight digits followed by the time
separator character. -/
def tokAt (s : Str) : Bool :=
  ((s.take 8).length == 8) && (s.take 8).all (fun c => c.isDigit) &&
  (match s.drop 8 with
   | c :: _ => c == 'T'
   | [] => false)

/-- Modelled from the spec: `asf_notebook.date_from_product_name` is not part
of src/ (only its call sites in cells 42 and 61 are).  The spec describes the
acquisition date as "parsed from filename (date token preceding a time
separator)"; we model the function as returning the suffix of the name that
begins at the first date-time token (eight digits followed by a `T`), so that
the caller's `.split('T')[0]` recovers the eight-digit date. -/
def date_time_token : Str → Str
  | [] => []
  | c :: cs => if tokAt (c :: cs) then c :: cs else date_time_token cs

def date_from_product_name (p : Str) : Str := date_time_token p

/-- Cell 42: `asfn.date_from_product_name(pth).split('T')[0]`. -/
def dateOf (p : Str) : Str := (splitOn 'T' (date_from_product_name p)).headD []

/-- Cell 42 `get_dates`: the acquisition dates of a list of paths. -/
def get_dates (tiff_paths : List Str) : List Str := tiff_paths.map dateOf

theorem tokAt_cons_of_nondigit (c : Char) (cs : Str) (h : c.isDigit = false) :
    tokAt (c :: cs) = false := by
  simp [tokAt, List.take_succ_cons, h]

theorem dateOf_cons_of_nontok (c : Char) (cs : Str)
    (h : tokAt (c :: cs) = false) : dateOf (c :: cs) = dateOf cs := by
  simp [dateOf, date_from_product_name, date_time_token, h]

theorem dateOf_cons_of_nondigit (c : Char) (cs : Str) (h : c.isDigit = false) :
    dateOf (c :: cs) = dateOf cs :=
  dateOf_cons_of_nontok c cs (tokAt_cons_of_nondigit c cs h)

/-- Prepending the literal `new` to a filename does not change the parsed
acquisition date. -/
theorem dateOf_new_prepend (n : Str) : dateOf (str "new" ++ n) = dateOf n := by
  show dateOf ('n' :: 'e' :: 'w' :: n) = dateOf n
  rw [dateOf_cons_of_nondigit 'n' _ (by decide),
      dateOf_cons_of_nondigit 'e' _ (by decide),
      dateOf_cons_of_nondigit 'w' _ (by decide)]

theorem tokAt_decomp (s : Str) (h : tokAt s = true) :
    ∃ rest, s = s.take 8 ++ 'T' :: rest ∧ (s.take 8).length = 8 ∧
      (s.take 8).all (fun c => c.isDigit) = true := by
  simp only [tokAt, Bool.and_eq_true, beq_iff_eq] at h
  obtain ⟨⟨hlen, hdig⟩, hdrop⟩ := h
  cases hd : s.drop 8 with
  | nil => rw [hd] at hdrop; simp at hdrop
  | cons y ys =>
    rw [hd] at hdrop
    have hy : y = 'T' := by
      simpa using hdrop
    refine ⟨ys, ?_, hlen, hdig⟩
    conv_lhs => rw [← List.take_append_drop 8 s]
    rw [hd, hy]

theorem dateOf_of_tokAt (s : Str) (h : tokAt s = true) :
    dateOf s = s.take 8 := by
  obtain ⟨rest, hs, hlen, hdig⟩ := tokAt_decomp s h
  have hT : 'T' ∉ s.take 8 := by
    intro hmem
    have := List.all_eq_true.mp hdig _ hmem
    simp at this
  have hd : date_time_token s = s := by
    cases s with
    | nil => simp at hlen
    | cons c cs => simp [date_time_token, h]
  rw [dateOf, date_from_product_name, hd]
  conv_lhs => rw [hs]
  rw [splitOn_sep_append 'T' _ rest hT]
  simp

theorem tokAt_slash_short (x r : Str) (h : x.length ≤ 8) :
    tokAt (x ++ '/' :: r) = false := by
  rcases Nat.lt_or_ge x.length 8 with hlt | hge
  · have htake : (x ++ '/' :: r).take 8 = x ++ ('/' :: r).take (8 - x.length) := by
      rw [List.take_append_eq_append_take, List.take_of_length_le (Nat.le_of_lt hlt)]
    have hslash : '/' ∈ (x ++ '/' :: r).take 8 := by
      rw [htake]
      have : 0 < 8 - x.length := Nat.sub_pos_of_lt hlt
      cases h8 : 8 - x.length with
      | zero => omega
      | succ k => simp [List.take_succ_cons]
    have hall : ((x ++ '/' :: r).take 8).all (fun c => c.isDigit) = false := by
      rw [Bool.eq_false_iff]
      intro hallt
      exact absurd (List.all_eq_true.mp hallt _ hslash) (by decide)
    simp [tokAt, hall]
  · have hx8 : x.length = 8 := Nat.le_antisymm h hge
    have h1 : x.drop 8 = [] := List.drop_eq_nil_of_le hx8.le
    have hdrop : (x ++ '/' :: r).drop 8 = '/' :: r := by
      rw [List.drop_append_eq_append_drop, h1, hx8]
      simp
    simp [tokAt, hdrop]

theorem tokAt_long_append (x r r' : Str) (h : 9 ≤ x.length) :
    tokAt (x ++ r) = tokAt (x ++ r') := by
  have h8 : 8 ≤ x.length := by omega
  have htake : ∀ y : Str, (x ++ y).take 8 = x.take 8 := by
    intro y
    rw [List.take_append_eq_append_take, Nat.sub_eq_zero_of_le h8]
    simp
  have hdrop : ∀ y : Str, (x ++ y).drop 8 = x.drop 8 ++ y := by
    intro y
    rw [List.drop_append_eq_append_drop, Nat.sub_eq_zero_of_le h8]
    simp
  have hlen : 0 < (x.drop 8).length := by
    rw [List.length_drop]; omega
  cases hd : x.drop 8 with
  | nil => rw [hd] at hlen; simp at hlen
  | cons y ys =>
    simp only [tokAt, htake, hdrop, hd, List.cons_append]

/-- Inserting the literal `new` right after a slash does not change the
parsed acquisition date of a path: a date-time token never spans the slash,
so the first token is found at the same place. -/
theorem dateOf_slash_new (x n : Str) :
    dateOf (x ++ '/' :: (str "new" ++ n)) = dateOf (x ++ '/' :: n) := by
  induction x with
  | nil =>
    show dateOf ('/' :: (str "new" ++ n)) = dateOf ('/' :: n)
    rw [dateOf_cons_of_nondigit '/' _ (by decide),
        dateOf_cons_of_nondigit '/' _ (by decide), dateOf_new_prepend]
  | cons c x ih =>
    rcases Nat.lt_or_ge (c :: x).length 9 with hlt | hge
    · have h8 : (c :: x).length ≤ 8 := by omega
      have hA : tokAt (c :: (x ++ '/' :: (str "new" ++ n))) = false :=
        tokAt_slash_short (c :: x) (str "new" ++ n) h8
      have hB : tokAt (c :: (x ++ '/' :: n)) = false :=
        tokAt_slash_short (c :: x) n h8
      show dateOf (c :: (x ++ '/' :: (str "new" ++ n))) =
        dateOf (c :: (x ++ '/' :: n))
      rw [dateOf_cons_of_nontok _ _ hA, dateOf_cons_of_nontok _ _ hB]
      exact ih
    · have heq := tokAt_long_append (c :: x) ('/' :: (str "new" ++ n))
        ('/' :: n) hge
      cases hT : tokAt ((c :: x) ++ '/' :: n) with
      | false =>
        have hA : tokAt (c :: (x ++ '/' :: (str "new" ++ n))) = false := by
          have : tokAt ((c :: x) ++ '/' :: (str "new" ++ n)) = false := by
            rw [heq, hT]
          exact this
        have hB : tokAt (c :: (x ++ '/' :: n)) = false := hT
        show dateOf (c :: (x ++ '/' :: (str "new" ++ n))) =
          dateOf (c :: (x ++ '/' :: n))
        rw [dateOf_cons_of_nontok _ _ hA, dateOf_cons_of_nontok _ _ hB]
        exact ih
      | true =>
        have hA : tokAt ((c :: x) ++ '/' :: (str "new" ++ n)) = true := by
          rw [heq, hT]
        rw [dateOf_of_tokAt _ hA, dateOf_of_tokAt _ hT]
        have ht : ∀ y : Str, ((c :: x) ++ y).take 8 = (c :: x).take 8 := by
          intro y
          rw [List.take_append_eq_append_take,
            Nat.sub_eq_zero_of_le (by omega : 8 ≤ (c :: x).length)]
          simp
        rw [ht, ht]

/-- `suf` is a suffix of `s` (executable). -/
def endsWithStr (s suf : Str) : Bool := suf.reverse.isPrefixOf s.reverse

theorem endsWithStr_iff (s suf : Str) : endsWithStr s suf = true ↔ suf <:+ s := by
  rw [endsWithStr, List.isPrefixOf_iff_prefix, List.reverse_prefix]

/-- Cell 61 regex `(\w|/)*_{polar}.(tif|tiff)$` under `re.search`, with the
unescaped `.` read at its intended literal value: the path ends in
`_<polar>.tif` or `_<polar>.tiff`.  (Cell 38's collection regex also admits
`-` as channel separator; HyP3 product rasters use `_`, for which the two
patterns agree, and the development states its results for those.) -/
def polarMatches (polar : Str) (p : Str) : Bool :=
  endsWithStr p ('_' :: (polar ++ str ".tif")) ||
  endsWithStr p ('_' :: (polar ++ str ".tiff"))

/-- Cells 44/53/65 `get_tiff_paths`: glob plus regex filter over the working
directory, modelled as filtering the filesystem listing by the channel
patterns (both channels in dual-polarization mode, one otherwise). -/
def get_tiff_paths (chans : List Str) (fs : List Str) : List Str :=
  fs.filter (fun p => chans.any (fun c => polarMatches c p))

/-- Cell 59 inner loop: occurrences of `date` in `dates`. -/
def countOf (dates : List Str) (date : Str) : Nat :=
  (dates.filter (fun d => d == date)).length

/-- Cell 59: the candidate (duplicate) dates — the keys inserted into
`dup_date_batches[0]`: dates of the combined stack occurring more than
once. -/
def dup_dates (dates : List Str) : List Str :=
  dates.dedup.filter (fun date => 1 < countOf dates date)

/-- Cell 59 with the `dbl_polar` branch: one date-keyed mapping per channel;
in dual-polarization mode the single mapping built from the combined date
list is deep-copied, so both channels share the same candidate-date set. -/
def dup_date_batches (dbl_polar : Bool) (dates : List Str) : List (List Str) :=
  if dbl_polar then [dup_dates dates, dup_dates dates] else [dup_dates dates]

/-- Cell 61: the accumulated space-separated path string for one candidate
date (the dictionary value `dup_date_batches[i][date]`, which starts as `""`
and receives `" " + pth` for every channel path of that date). -/
def batchValue (polar_paths : List Str) (d : Str) : Str :=
  polar_paths.foldl
    (fun acc p => if dateOf p == d then acc ++ ' ' :: p else acc) []

/-- The non-empty whitespace tokens of a Python string: what the shell sees
as arguments, and what cell 63's deletion loop visits (its `if pth` guard
skips the empty token that the leading space produces). -/
def valueTokens (s : Str) : List Str :=
  (splitOn ' ' s).filter (fun t => !(t == []))

/-- Cell 63:
`f"{v.split('/')[0]}/{v.split('/')[1]}/new{v.split('/')[2].split(' ')[0]}"`.
Python raises `IndexError` here when the value has fewer than three
`/`-separated parts (a candidate date with no file in this channel); the
embedding is total via `getD` and theorems are stated under the
batch-nonempty hypothesis that keeps Python from crashing. -/
def mergeOutput (value : Str) : Str :=
  ((splitOn '/' value).getD 0 []) ++ '/' ::
    (((splitOn '/' value).getD 1 []) ++ '/' ::
      (str "new" ++ ((splitOn ' ' ((splitOn '/' value).getD 2 [])).getD 0 [])))

/-- The output raster that `gdal_merge.py -o <output> ...` writes for one
candidate date: the first whitespace token of the constructed output string
(which begins with the space left at the front by cell 61's accumulation). -/
def merge_created (polar_paths : List Str) (d : Str) : Str :=
  (valueTokens (mergeOutput (batchValue polar_paths d))).getD 0 []

/-- The contributing input files passed to `gdal_merge.py` for one candidate
date, and visited by the deletion loop. -/
def merge_inputs (polar_paths : List Str) (d : Str) : List Str :=
  valueTokens (batchValue polar_paths d)

/-- Cell 63 invokes `gdal_merge.py` once per candidate date per channel:
the output path and the contributing input files of each invocation. -/
def mosaic_calls (polar_paths : List Str) (dupList : List Str) :
    List (Str × List Str) :=
  dupList.map (fun d => (merge_created polar_paths d, merge_inputs polar_paths d))

/-- Cell 63 body for one candidate date: invoke `gdal_merge.py` (external;
success abstracted as `ok` — on success the output raster exists afterwards,
and the notebook never checks the result), then delete every input token
that exists on disk. -/
def merge_dup_date (ok : Bool) (polar_paths : List Str) (d : Str)
    (fs : List Str) : List Str :=
  let out := merge_created polar_paths d
  let fs1 := if ok then (fs.filter (fun p => !(p == out))) ++ [out] else fs
  (merge_inputs polar_paths d).foldl
    (fun acc p => acc.filter (fun q => !(q == p))) fs1

/-- Cell 63 outer loop for one channel: process every candidate date. -/
def merge_channel (ok : Str → Bool) (polar_paths : List Str)
    (dupList : List Str) (fs : List Str) : List Str :=
  dupList.foldl (fun acc d => merge_dup_date (ok d) polar_paths d acc) fs

/-- Cell 65 verification for one channel:
`len(dates) != len(set(dates))`; `true` prints
"Duplicate dates still present!". -/
def duplicate_dates_check (paths : List Str) : Bool :=
  !((get_dates paths).length == (get_dates paths).dedup.length)

/-- Well-formed raster path: `rtc_products/<product>/<tiff>` with non-empty,
space-free components (what the cell 44 glob over `rtc_products/*/*` yields
for files unpacked from product archives). -/
def wfPath (p : Str) : Bool :=
  match splitOn '/' p with
  | [a, b, c] =>
      a == str "rtc_products" && !(b == []) && !(c == []) &&
      b.all (fun ch => !(ch == ' ')) && c.all (fun ch => !(ch == ' '))
  | _ => false

/-- The string a sequence of appends `acc = acc + " " + pth` produces. -/
def spaceJoin (ps : List Str) : Str := (ps.map (fun p => ' ' :: p)).flatten

theorem batchValue_eq (ps : List Str) (d : Str) :
    batchValue ps d = spaceJoin (ps.filter (fun p => dateOf p == d)) := by
  suffices h : ∀ acc : Str,
      ps.foldl (fun acc p => if dateOf p == d then acc ++ ' ' :: p else acc) acc
        = acc ++ spaceJoin (ps.filter (fun p => dateOf p == d)) by
    simpa [batchValue] using h []
  induction ps with
  | nil => intro acc; simp [spaceJoin]
  | cons p ps ih =>
    intro acc
    by_cases hp : (dateOf p == d) = true
    · have hf : List.filter (fun p => dateOf p == d) (p :: ps)
          = p :: List.filter (fun p => dateOf p == d) ps := by
        simp [List.filter_cons, hp]
      rw [List.foldl_cons, if_pos hp, ih, hf]
      simp [spaceJoin]
    · have hp' : (dateOf p == d) = false := by simpa using hp
      have hf : List.filter (fun p => dateOf p == d) (p :: ps)
          = List.filter (fun p => dateOf p == d) ps := by
        simp [List.filter_cons, hp']
      rw [List.foldl_cons, if_neg (by simp [hp']), ih, hf]

theorem valueTokens_cons_space (s : Str) :
    valueTokens (' ' :: s) = valueTokens s := by
  simp [valueTokens, splitOn]

theorem valueTokens_spaceJoin (ps : List Str)
    (h : ∀ p ∈ ps, p ≠ [] ∧ ' ' ∉ p) : valueTokens (spaceJoin ps) = ps := by
  induction ps with
  | nil => simp [spaceJoin, valueTokens, splitOn]
  | cons p ps ih =>
    obtain ⟨hp, hsp⟩ := h p (by simp)
    have hrest : ∀ q ∈ ps, q ≠ [] ∧ ' ' ∉ q := fun q hq => h q (by simp [hq])
    have hjoin : spaceJoin (p :: ps) = ' ' :: (p ++ spaceJoin ps) := by
      simp [spaceJoin]
    rw [hjoin, valueTokens_cons_space]
    cases ps with
    | nil =>
      have hnil : p ++ spaceJoin [] = p := by simp [spaceJoin]
      rw [hnil, valueTokens, splitOn_no_sep ' ' p hsp]
      simp [hp]
    | cons q qs =>
      have hq : spaceJoin (q :: qs) = ' ' :: (q ++ spaceJoin qs) := by
        simp [spaceJoin]
      rw [hq, valueTokens, splitOn_sep_append ' ' p _ hsp,
        List.filter_cons_of_pos (by simpa using hp)]
      congr 1
      have hmem := ih hrest
      rw [hq, valueTokens_cons_space, valueTokens] at hmem
      exact hmem

/-- Inverse of `splitOn`: interleave the separator back. -/
def joinCh (c : Char) : List Str → Str
  | [] => []
  | [x] => x
  | x :: y :: ys => x ++ c :: joinCh c (y :: ys)

theorem joinCh_splitOn (c : Char) (s : Str) : joinCh c (splitOn c s) = s := by
  induction s with
  | nil => rfl
  | cons x xs ih =>
    by_cases hx : x = c
    · subst hx
      cases h : splitOn x xs with
      | nil => exact absurd h (splitOn_ne_nil x xs)
      | cons t ts =>
        rw [h] at ih
        simp only [splitOn, if_pos rfl, h, joinCh]
        rw [ih]
        simp
    · cases h : splitOn c xs with
      | nil => exact absurd h (splitOn_ne_nil c xs)
      | cons t ts =>
        rw [h] at ih
        simp only [splitOn, if_neg hx, h]
        cases ts with
        | nil => simp only [joinCh] at ih ⊢; rw [ih]
        | cons u us =>
          simp only [joinCh] at ih ⊢
          rw [List.cons_append, ih]

theorem splitOn_parts_no_sep (c : Char) (s : Str) :
    ∀ t ∈ splitOn c s, c ∉ t := by
  induction s with
  | nil => simp [splitOn]
  | cons x xs ih =>
    by_cases hx : x = c
    · subst hx
      simp only [splitOn, if_pos rfl]
      intro t ht
      rcases List.mem_cons.mp ht with h1 | h1
      · subst h1; simp
      · exact ih t h1
    · cases h : splitOn c xs with
      | nil => exact absurd h (splitOn_ne_nil c xs)
      | cons u us =>
        simp only [splitOn, if_neg hx, h]
        intro t ht
        rcases List.mem_cons.mp ht with h1 | h1
        · subst h1
          intro hc
          rcases List.mem_cons.mp hc with h2 | h2
          · exact hx h2.symm
          · exact ih u (by rw [h]; exact List.mem_cons_self u us) h2
        · exact ih t (by rw [h]; exact List.mem_cons_of_mem u h1)

theorem wfPath_decomp (p : Str) (hwf : wfPath p = true) :
    ∃ b c, splitOn '/' p = [str "rtc_products", b, c] ∧
      p = str "rtc_products" ++ '/' :: (b ++ '/' :: c) ∧
      b ≠ [] ∧ c ≠ [] ∧ ' ' ∉ b ∧ ' ' ∉ c ∧ '/' ∉ b ∧ '/' ∉ c := by
  rcases hsp : splitOn '/' p with _ | ⟨a, _ | ⟨b, _ | ⟨c, _ | ⟨e, l⟩⟩⟩⟩ <;>
    rw [wfPath, hsp] at hwf
  · simp at hwf
  · simp at hwf
  · simp at hwf
  · simp only [Bool.and_eq_true, beq_iff_eq, Bool.not_eq_true', List.all_eq_true,
      beq_eq_false_iff_ne] at hwf
    obtain ⟨⟨⟨⟨ha, hb⟩, hc⟩, hbs⟩, hcs⟩ := hwf
    subst ha
    refine ⟨b, c, rfl, ?_, hb, hc, ?_, ?_, ?_, ?_⟩
    · have := joinCh_splitOn '/' p
      rw [hsp] at this
      simp only [joinCh] at this
      rw [← this]
    · intro hsmem; exact (hbs ' ' hsmem) rfl
    · intro hsmem; exact (hcs ' ' hsmem) rfl
    · exact splitOn_parts_no_sep '/' p b (by rw [hsp]; simp)
    · exact splitOn_parts_no_sep '/' p c (by rw [hsp]; simp)
  · simp at hwf

theorem wfPath_clean (p : Str) (hwf : wfPath p = true) :
    p ≠ [] ∧ ' ' ∉ p := by
  obtain ⟨b, c, _, hp, _, _, hbs, hcs, _, _⟩ := wfPath_decomp p hwf
  constructor
  · rw [hp]; simp [str]
  · rw [hp]
    intro hmem
    rcases List.mem_append.mp hmem with h1 | h1
    · revert h1; decide
    · rcases List.mem_cons.mp h1 with h2 | h2
      · exact absurd h2.symm (by decide)
      · rcases List.mem_append.mp h2 with h3 | h3
        · exact hbs h3
        · rcases List.mem_cons.mp h3 with h4 | h4
          · exact absurd h4.symm (by decide)
          · exact hcs h4

/-- Under well-formed paths, the contributing inputs of a candidate date are
exactly the channel paths carrying that date, in order. -/
theorem merge_inputs_eq (ps : List Str) (d : Str)
    (hwf : ∀ p ∈ ps, wfPath p = true) :
    merge_inputs ps d = ps.filter (fun p => dateOf p == d) := by
  rw [merge_inputs, batchValue_eq, valueTokens_spaceJoin]
  intro p hp
  exact wfPath_clean p (hwf p (List.mem_of_mem_filter hp))

/-- Cell 63's output-path construction, resolved: for a non-empty batch the
created raster sits in the first contributing file's product directory and
carries the first file's basename with `new` prepended. -/
theorem merge_created_spec (ps : List Str) (d : Str)
    (hwf : ∀ p ∈ ps, wfPath p = true)
    (p₁ : Str) (rest : List Str)
    (hbatch : ps.filter (fun p => dateOf p == d) = p₁ :: rest) :
    ∃ b c, splitOn '/' p₁ = [str "rtc_products", b, c] ∧
      merge_created ps d
        = str "rtc_products" ++ '/' :: (b ++ '/' :: (str "new" ++ c)) := by
  have hp₁ps : p₁ ∈ ps := List.mem_of_mem_filter
    (by rw [hbatch]; exact List.mem_cons_self _ _)
  obtain ⟨b, c, hsp1, hpeq, hbne, hcne, hbs, hcs, hbsl, hcsl⟩ :=
    wfPath_decomp p₁ (hwf p₁ hp₁ps)
  refine ⟨b, c, hsp1, ?_⟩
  have hvalue : batchValue ps d = ' ' :: (p₁ ++ spaceJoin rest) := by
    rw [batchValue_eq, hbatch]
    simp [spaceJoin]
  have hre : ' ' :: (p₁ ++ spaceJoin rest)
      = (' ' :: str "rtc_products") ++
        '/' :: (b ++ '/' :: (c ++ spaceJoin rest)) := by
    rw [hpeq]
    simp [List.append_assoc]
  have hnsl1 : '/' ∉ (' ' :: str "rtc_products") := by decide
  have hsplit : splitOn '/' (batchValue ps d)
      = (' ' :: str "rtc_products") :: b ::
        splitOn '/' (c ++ spaceJoin rest) := by
    rw [hvalue, hre, splitOn_sep_append '/' _ _ hnsl1,
      splitOn_sep_append '/' b _ hbsl]
  have htok : (splitOn ' '
      ((splitOn '/' (c ++ spaceJoin rest)).getD 0 [])).getD 0 [] = c := by
    cases rest with
    | nil =>
      have h1 : c ++ spaceJoin [] = c := by simp [spaceJoin]
      rw [h1, splitOn_no_sep '/' c hcsl]
      simp only [List.getD_cons_zero]
      rw [splitOn_no_sep ' ' c hcs]
      rfl
    | cons q qs =>
      have hqps : q ∈ ps := List.mem_of_mem_filter
        (by rw [hbatch]; exact List.mem_cons_of_mem _ (List.mem_cons_self _ _))
      obtain ⟨b2, c2, _, hqeq, _, _, _, _, _, _⟩ :=
        wfPath_decomp q (hwf q hqps)
      have h2 : c ++ spaceJoin (q :: qs)
          = (c ++ ' ' :: str "rtc_products") ++
            '/' :: ((b2 ++ '/' :: c2) ++ spaceJoin qs) := by
      

        have hsj : spaceJoin (q :: qs) = ' ' :: (q ++ spaceJoin qs) := by
          simp [spaceJoin]
        rw [hsj, hqeq]
        simp [List.append_assoc]
      have hns : '/' ∉ (c ++ ' ' :: str "rtc_products") := by
        intro hmem
        rcases List.mem_append.mp hmem with h3 | h3
        · exact hcsl h3
        · revert h3; decide
      rw [h2, splitOn_sep_append '/' _ _ hns]
      simp only [List.getD_cons_zero]
      rw [splitOn_sep_append ' ' c _ hcs]
      rfl
  have hout : mergeOutput (batchValue ps d)
      = ' ' :: (str "rtc_products" ++
        '/' :: (b ++ '/' :: (str "new" ++ c))) := by
    rw [mergeOutput, hsplit]
    simp only [List.getD_cons_succ, List.getD_cons_zero]
    rw [htok]
    simp
  have hpathne : str "rtc_products" ++
      '/' :: (b ++ '/' :: (str "new" ++ c)) ≠ [] := by
    simp [str]
  have hpathns : ' ' ∉ str "rtc_products" ++
      '/' :: (b ++ '/' :: (str "new" ++ c)) := by
    intro hmem
    rcases List.mem_append.mp hmem with h3 | h3
    · revert h3; decide
    · rcases List.mem_cons.mp h3 with h4 | h4
      · exact absurd h4.symm (by decide)
      · rcases List.mem_append.mp h4 with h5 | h5
        · exact hbs h5
        · rcases List.mem_cons.mp h5 with h6 | h6
          · exact absurd h6.symm (by decide)
          · rcases List.mem_append.mp h6 with h7 | h7
            · revert h7; decide
            · exact hcs h7
  rw [merge_created, hout, valueTokens_cons_space, valueTokens,
    splitOn_no_sep ' ' _ hpathns]
  simp [hpathne]

/-- `merge_created_spec` packaged with the first file's path equation. -/
theorem merge_created_full (ps : List Str) (d : Str)
    (hwf : ∀ p ∈ ps, wfPath p = true)
    (p₁ : Str) (rest : List Str)
    (hbatch : ps.filter (fun p => dateOf p == d) = p₁ :: rest) :
    ∃ b c, p₁ = str "rtc_products" ++ '/' :: (b ++ '/' :: c) ∧
      merge_created ps d
        = str "rtc_products" ++ '/' :: (b ++ '/' :: (str "new" ++ c)) := by
  have hp₁ps : p₁ ∈ ps := List.mem_of_mem_filter
    (by rw [hbatch]; exact List.mem_cons_self _ _)
  obtain ⟨b, c, hsp1, hpeq, _, _, _, _, _, _⟩ :=
    wfPath_decomp p₁ (hwf p₁ hp₁ps)
  obtain ⟨b', c', hsp1', hcr⟩ := merge_created_spec ps d hwf p₁ rest hbatch
  rw [hsp1] at hsp1'
  have hb : b = b' := by
    have := (List.cons.injEq _ _ _ _ ▸ hsp1').2
    exact (List.cons.injEq _ _ _ _ ▸ this).1
  have hc : c = c' := by
    have h1 := (List.cons.injEq _ _ _ _ ▸ hsp1').2
    have h2 := (List.cons.injEq _ _ _ _ ▸ h1).2
    exact (List.cons.injEq _ _ _ _ ▸ h2).1
  exact ⟨b, c, hpeq, by rw [hb, hc]; exact hcr⟩

/-- The created raster parses to the same acquisition date as the batch's
first contributing file, hence to the candidate date itself. -/
theorem merge_created_date (ps : List Str) (d : Str)
    (hwf : ∀ p ∈ ps, wfPath p = true)
    (hne : ps.filter (fun p => dateOf p == d) ≠ []) :
    dateOf (merge_created ps d) = d := by
  cases hbatch : ps.filter (fun p => dateOf p == d) with
  | nil => exact absurd hbatch hne
  | cons p₁ rest =>
    obtain ⟨b, c, hpeq, hcr⟩ := merge_created_full ps d hwf p₁ rest hbatch
    have hd1 : dateOf p₁ = d := by
      have hmem : p₁ ∈ ps.filter (fun p => dateOf p == d) := by
        rw [hbatch]; exact List.mem_cons_self _ _
      simpa using (List.mem_filter.mp hmem).2
    have hassoc : ∀ X : Str, str "rtc_products" ++ '/' :: (b ++ '/' :: X)
        = (str "rtc_products" ++ '/' :: b) ++ '/' :: X := by
      intro X; simp
    rw [hcr, hassoc, dateOf_slash_new, ← hassoc, ← hpeq, hd1]

/-- Deleting each of a list of paths in turn is one filter. -/
theorem foldl_filter_erase (ins : List Str) : ∀ L : List Str,
    ins.foldl (fun acc p => acc.filter (fun q => !(q == p))) L
      = L.filter (fun q => !(ins.contains q)) := by
  induction ins with
  | nil =>
    intro L
    simp [List.filter_true]
  | cons p ins ih =>
    intro L
    rw [List.foldl_cons, ih, List.filter_filter]
    congr 1
    funext q
    simp only [List.contains_cons, Bool.not_or]
    rw [Bool.and_comm]

/-- Closed form of the cell 63 channel loop: starting from the channel files
`A` (all drawn from the snapshot `ps`) plus previously created outputs `C`,
the loop removes every file whose date is a candidate and appends one created
raster per candidate date. -/
theorem merge_channel_closed (ok : Str → Bool) (ps : List Str)
    (hwf : ∀ p ∈ ps, wfPath p = true) :
    ∀ (dl A C : List Str), dl.Nodup →
    (∀ p ∈ A, p ∈ ps) →
    (∀ p ∈ C, p ∉ ps ∧ ∀ d ∈ dl, p ≠ merge_created ps d) →
    (∀ d ∈ dl, ps.filter (fun p => dateOf p == d) ≠ []) →
    (∀ d ∈ dl, merge_created ps d ∉ ps) →
    (∀ d ∈ dl, ok d = true) →
    merge_channel ok ps dl (A ++ C)
      = A.filter (fun p => !(dl.contains (dateOf p))) ++ C
          ++ dl.map (merge_created ps) := by
  intro dl
  induction dl with
  | nil =>
    intro A C _ _ _ _ _ _
    simp [merge_channel, List.filter_true]
  | cons d dl ih =>
    intro A C hnd hA hC hne hfresh hok
    have hokd : ok d = true := hok d (List.mem_cons_self _ _)
    have hfd : merge_created ps d ∉ ps := hfresh d (List.mem_cons_self _ _)
    have hdd : dateOf (merge_created ps d) = d :=
      merge_created_date ps d hwf (hne d (List.mem_cons_self _ _))
    have hins : merge_inputs ps d = ps.filter (fun p => dateOf p == d) :=
      merge_inputs_eq ps d hwf
    have hstep : merge_dup_date (ok d) ps d (A ++ C)
        = A.filter (fun q => !(dateOf q == d))
            ++ (C ++ [merge_created ps d]) := by
      rw [merge_dup_date, hokd, if_pos rfl, foldl_filter_erase]
      have h1 : (A ++ C).filter (fun p => !(p == merge_created ps d))
          = A ++ C := by
        rw [List.filter_eq_self]
        intro a ha
        rcases List.mem_append.mp ha with h2 | h2
        · have : a ≠ merge_created ps d := fun he => hfd (he ▸ hA a h2)
          simpa using this
        · simpa using (hC a h2).2 d (List.mem_cons_self _ _)
      rw [h1]
      have h2 : ∀ q : Str, q ∈ ps →
          (!((merge_inputs ps d).contains q)) = (!(dateOf q == d)) := by
        intro q hq
        rw [hins]
        by_cases hqd : (dateOf q == d) = true
        · have : q ∈ ps.filter (fun p => dateOf p == d) :=
            List.mem_filter.mpr ⟨hq, hqd⟩
          have hcont : (ps.filter (fun p => dateOf p == d)).contains q = true := by
            simpa [List.elem_iff] using this
          rw [hcont, hqd]
        · have hqd' : (dateOf q == d) = false := by simpa using hqd
          have : q ∉ ps.filter (fun p => dateOf p == d) := by
            intro hmem
            exact hqd (List.mem_filter.mp hmem).2
          have hcont : (ps.filter (fun p => dateOf p == d)).contains q = false := by
            simpa [List.elem_iff] using this
          rw [hcont, hqd']
      have h3 : ∀ q : Str, q ∉ ps →
          (!((merge_inputs ps d).contains q)) = true := by
        intro q hq
        rw [hins]
        have : q ∉ ps.filter (fun p => dateOf p == d) :=
          fun hmem => hq (List.mem_of_mem_filter hmem)
        have hcont : (ps.filter (fun p => dateOf p == d)).contains q = false := by
          simpa [List.elem_iff] using this
        rw [hcont]
        rfl
      rw [List.filter_append, List.filter_append, List.append_assoc]
      congr 1
      · exact List.filter_congr (fun q hq => h2 q (hA q hq))
      congr 1
      · rw [List.filter_eq_self]
        exact fun q hq => h3 q (hC q hq).1
      · rw [List.filter_eq_self]
        intro q hq
        rw [List.mem_singleton] at hq
        subst hq
        exact h3 _ hfd
    have hpeel : merge_channel ok ps (d :: dl) (A ++ C)
        = merge_channel ok ps dl (merge_dup_date (ok d) ps d (A ++ C)) := by
      simp [merge_channel]
    rw [hpeel, hstep]
    have hih := ih (A.filter (fun q => !(dateOf q == d)))
      (C ++ [merge_created ps d])
      (List.nodup_cons.mp hnd).2
      (fun p hp => hA p (List.mem_of_mem_filter hp))
      ?_ ?_ ?_ ?_
    · rw [hih, List.filter_filter]
      have hpred : ∀ a : Str,
          ((!(dl.contains (dateOf a))) && (!(dateOf a == d)))
            = (!((d :: dl).contains (dateOf a))) := by
        intro a
        simp only [List.contains_cons, Bool.not_or]
        rw [Bool.and_comm]
      rw [List.filter_congr (fun a _ => hpred a)]
      simp
    · intro p hp
      rcases List.mem_append.mp hp with h4 | h4
      · exact ⟨(hC p h4).1,
          fun d' hd' => (hC p h4).2 d' (List.mem_cons_of_mem _ hd')⟩
      · rw [List.mem_singleton] at h4
        subst h4
        refine ⟨hfd, fun d' hd' he => ?_⟩
        have hdd' : dateOf (merge_created ps d') = d' :=
          merge_created_date ps d' hwf (hne d' (List.mem_cons_of_mem _ hd'))
        rw [he, hdd'] at hdd
        exact (List.nodup_cons.mp hnd).1 (hdd ▸ hd')
    · exact fun d' hd' => hne d' (List.mem_cons_of_mem _ hd')
    · exact fun d' hd' => hfresh d' (List.mem_cons_of_mem _ hd')
    · exact fun d' hd' => hok d' (List.mem_cons_of_mem _ hd')

/-- Lexicographic comparison of character lists by code point: the string
order `numpy.unique` sorts by. -/
def strLt : Str → Str → Bool
  | _, [] => false
  | [], _ :: _ => true
  | a :: s, b :: t => if a < b then true else if b < a then false else strLt s t

theorem strLt_irrefl (a : Str) : strLt a a = false := by
  induction a with
  | nil => rfl
  | cons c s ih => simp [strLt, lt_irrefl, ih]

theorem strLt_asymm (a b : Str) (h : strLt a b = true) : strLt b a = false := by
  induction a generalizing b with
  | nil =>
    cases b with
    | nil => simpa [strLt] using h
    | cons y t => rfl
  | cons x s ih =>
    cases b with
    | nil => simp [strLt] at h
    | cons y t =>
      by_cases hxy : x < y
      · have hyx : ¬ y < x := lt_asymm hxy
        simp [strLt, hyx, ne_of_gt hxy, hxy]
      · by_cases hyx : y < x
        · simp [strLt, hxy, hyx] at h
        · have hst : strLt s t = true := by simpa [strLt, hxy, hyx] using h
          simp [strLt, hxy, hyx, ih t hst]

theorem strLt_trans (a b c : Str) (h1 : strLt a b = true)
    (h2 : strLt b c = true) : strLt a c = true := by
  induction a generalizing b c with
  | nil =>
    cases c with
    | nil =>
      cases b with
      | nil => exact h1
      | cons y t => simp [strLt] at h2
    | cons z u => rfl
  | cons x s ih =>
    cases b with
    | nil => simp [strLt] at h1
    | cons y t =>
      cases c with
      | nil => simp [strLt] at h2
      | cons z u =>
        by_cases hxy : x < y
        · by_cases hyz : y < z
          · simp [strLt, lt_trans hxy hyz]
          · by_cases hzy : z < y
            · simp [strLt, hyz, hzy] at h2
            · have hyz' : y = z := le_antisymm (not_lt.mp hzy) (not_lt.mp hyz)
              subst hyz'
              simp [strLt, hxy]
        · by_cases hyx : y < x
          · simp [strLt, hxy, hyx] at h1
          · have hxy' : x = y := le_antisymm (not_lt.mp hyx) (not_lt.mp hxy)
            subst hxy'
            have hst : strLt s t = true := by simpa [strLt, hxy] using h1
            by_cases hyz : x < z
            · simp [strLt, hyz]
            · by_cases hzy : z < x
              · simp [strLt, hyz, hzy] at h2
              · have htu : strLt t u = true := by simpa [strLt, hyz, hzy] using h2
                simp [strLt, hyz, hzy, ih t u hst htu]

theorem strLt_total (a b : Str) (h : a ≠ b) :
    strLt a b = true ∨ strLt b a = true := by
  induction a generalizing b with
  | nil =>
    cases b with
    | nil => exact absurd rfl h
    | cons y t => left; rfl
  | cons x s ih =>
    cases b with
    | nil => right; rfl
    | cons y t =>
      rcases lt_trichotomy x y with hxy | hxy | hxy
    
      · left; simp [strLt, hxy]
      · subst hxy
        have hst : s ≠ t := by
          intro he; exact h (by rw [he])
        rcases ih t hst with h1 | h1
        · left; simp [strLt, lt_irrefl, h1]
        · right; simp [strLt, lt_irrefl, h1]
      · right; simp [strLt, hxy, lt_asymm hxy]

/-- Sorted duplicate-free insertion (ascending `strLt`). -/
def insertUnique (x : Str) : List Str → List Str
  | [] => [x]
  | y :: ys =>
    if x = y then y :: ys
    else if strLt x y then x :: y :: ys
    else y :: insertUnique x ys

/-- `numpy.unique`: the distinct values in ascending lexicographic order. -/
def npUnique (l : List Str) : List Str := l.foldr insertUnique []

/-- `numpy.max` of the per-unique-value counts of cell 49. -/
def maxCount (l : List Str) : Nat :=
  ((npUnique l).map (countOf l)).foldr Nat.max 0

/-- Cell 49 (UTM branch):
`utm_unique, counts = np.unique(utm_zones, return_counts=True)`,
`a = np.where(counts == np.max(counts))`, `predominant_utm = utm_unique[a][0]`:
the first value in the sorted unique-zone enumeration whose count is
maximal.  Note the tally is over the zone codes alone; `utm_types` (the
authorities collected in cell 47) play no part. -/
def predominant_utm (utm_zones : List Str) : Str :=
  match (npUnique utm_zones).filter
      (fun u => countOf utm_zones u == maxCount utm_zones) with
  | [] => []
  | u :: _ => u

/-- Cell 49 with the coordinate-mode choice of cell 46: `Lat/Long` fixes the
target to the geographic code without tallying. -/
def predominant (coord_utm : Bool) (utm_zones : List Str) : Str :=
  if coord_utm then predominant_utm utm_zones else str "4326"

def uniqueFirstAux (seen : List (Str × Str)) :
    List (Str × Str) → List (Str × Str)
  | [] => []
  | x :: xs =>
    if seen.contains x then uniqueFirstAux seen xs
    else x :: uniqueFirstAux (x :: seen) xs

/-- The distinct values of a list in first-encountered order. -/
def uniqueFirst (l : List (Str × Str)) : List (Str × Str) := uniqueFirstAux [] l

def countPair (l : List (Str × Str)) (u : Str × Str) : Nat :=
  (l.filter (fun q => q == u)).length

def maxPairCount (l : List (Str × Str)) : Nat :=
  ((uniqueFirst l).map (countPair l)).foldr Nat.max 0

/-- Follows the claim text (C3), for comparison with the code's
`predominant_utm`: tally occurrences per unique (authority, code) pair and
select the pair with the maximal count, ties broken by first-encountered
order in the unique-value enumeration. -/
def predominant_pair (utm_types utm_zones : List Str) : Str × Str :=
  match (uniqueFirst (utm_types.zip utm_zones)).filter
      (fun u => countPair (utm_types.zip utm_zones) u
        == maxPairCount (utm_types.zip utm_zones)) with
  | [] => ([], [])
  | u :: _ => u

theorem mem_insertUnique (x y : Str) (l : List Str) :
    y ∈ insertUnique x l ↔ y = x ∨ y ∈ l := by
  induction l with
  | nil => simp [insertUnique]
  | cons z zs ih =>
    rw [insertUnique]
    by_cases hxz : x = z
    · rw [if_pos hxz]
      subst hxz
      constructor
      · intro h; right; exact h
      · rintro (h | h)
        · subst h; exact List.mem_cons_self _ _
        · exact h
    · rw [if_neg hxz]
      by_cases hlt : strLt x z = true
      · rw [if_pos hlt]
        simp only [List.mem_cons]
      · rw [if_neg hlt]
        simp only [List.mem_cons, ih]
        tauto

theorem mem_npUnique (y : Str) (l : List Str) :
    y ∈ npUnique l ↔ y ∈ l := by
  induction l with
  | nil => simp [npUnique]
  | cons x xs ih =>
    show y ∈ insertUnique x (npUnique xs) ↔ _
    rw [mem_insertUnique, ih]
    simp [List.mem_cons]

theorem pairwise_insertUnique (x : Str) (l : List Str)
    (h : l.Pairwise (fun a b => strLt a b = true)) :
    (insertUnique x l).Pairwise (fun a b => strLt a b = true) := by
  induction l with
  | nil => simp [insertUnique]
  | cons z zs ih =>
    rcases List.pairwise_cons.mp h with ⟨hz, hzs⟩
    by_cases hxz : x = z
    · subst hxz; simpa [insertUnique] using h
    · by_cases hlt : strLt x z = true
      · rw [insertUnique, if_neg hxz, if_pos hlt]
        refine List.pairwise_cons.mpr ⟨?_, h⟩
        intro b hb
        rcases List.mem_cons.mp hb with hb | hb
        · subst hb; exact hlt
        · exact strLt_trans x z b hlt (hz b hb)
      · rw [insertUnique, if_neg hxz, if_neg hlt]
        refine List.pairwise_cons.mpr ⟨?_, ih hzs⟩
        intro b hb
        rcases (mem_insertUnique x b zs).mp hb with hb | hb
        · rw [hb]
          rcases strLt_total x z hxz with h1 | h1
          · exact absurd h1 hlt
          · exact h1
        · exact hz b hb

theorem pairwise_npUnique (l : List Str) :
    (npUnique l).Pairwise (fun a b => strLt a b = true) := by
  induction l with
  | nil => simp [npUnique]
  | cons x xs ih => exact pairwise_insertUnique x (npUnique xs) ih

theorem foldr_max_mem (xs : List Nat) (h : xs ≠ []) :
    xs.foldr Nat.max 0 ∈ xs := by
  induction xs with
  | nil => exact absurd rfl h
  | cons x ys ih =>
    cases ys with
    | nil => simp
    | cons y zs =>
      rw [List.foldr_cons]
      rcases Nat.le_total ((y :: zs).foldr Nat.max 0) x with h1 | h1
      · have hx : x.max ((y :: zs).foldr Nat.max 0) = x := Nat.max_eq_left h1
        rw [hx]
        exact List.mem_cons_self _ _
      · have hx : x.max ((y :: zs).foldr Nat.max 0)
            = (y :: zs).foldr Nat.max 0 := Nat.max_eq_right h1
        rw [hx]
        exact List.mem_cons_of_mem _ (ih (by simp))

theorem le_foldr_max (xs : List Nat) (x : Nat) (h : x ∈ xs) :
    x ≤ xs.foldr Nat.max 0 := by
  induction xs with
  | nil => simp at h
  | cons y ys ih =>
    rw [List.foldr_cons]
    rcases List.mem_cons.mp h with h1 | h1
    · subst h1
      exact Nat.le_max_left _ _
    · exact Nat.le_trans (ih h1) (Nat.le_max_right _ _)

/-- The code's majority selection: the chosen zone occurs in the stack, its
count is maximal, and among maximal-count zones it is the first in the
sorted unique enumeration (the lexicographically smallest). -/
theorem predominant_utm_spec (zones : List Str) (h : zones ≠ []) :
    predominant_utm zones ∈ zones ∧
    (∀ z ∈ zones, countOf zones z ≤ countOf zones (predominant_utm zones)) ∧
    (∀ z ∈ zones, countOf zones z = countOf zones (predominant_utm zones) →
      strLt z (predominant_utm zones) = false) := by
  have hz0 : ∃ z0, z0 ∈ zones := by
    cases zones with
    | nil => exact absurd rfl h
    | cons a l => exact ⟨a, List.mem_cons_self _ _⟩
  obtain ⟨z0, hz0⟩ := hz0
  have hnu_ne : npUnique zones ≠ [] := by
    intro hnil
    have hm : z0 ∈ npUnique zones := (mem_npUnique _ _).mpr hz0
    rw [hnil] at hm
    simp at hm
  have hmap_ne : (npUnique zones).map (countOf zones) ≠ [] := by
    simpa using hnu_ne
  have hmax_mem := foldr_max_mem _ hmap_ne
  rw [List.mem_map] at hmax_mem
  obtain ⟨u, hu_mem, hu_eq⟩ := hmax_mem
  have hu_fil : u ∈ (npUnique zones).filter
      (fun v => countOf zones v == maxCount zones) :=
    List.mem_filter.mpr ⟨hu_mem, by rw [maxCount, hu_eq]; simp⟩
  cases hfil : (npUnique zones).filter
      (fun v => countOf zones v == maxCount zones) with
  | nil =>
    rw [hfil] at hu_fil
    simp at hu_fil
  | cons p rest =>
    have hpred : predominant_utm zones = p := by
      rw [predominant_utm, hfil]
    have hp_fil : p ∈ (npUnique zones).filter
        (fun v => countOf zones v == maxCount zones) := by
      rw [hfil]
      exact List.mem_cons_self _ _
    have hp_mem : p ∈ npUnique zones := (List.mem_filter.mp hp_fil).1
    have hp_cnt : countOf zones p = maxCount zones := by
      simpa using (List.mem_filter.mp hp_fil).2
    refine ⟨?_, ?_, ?_⟩
    · rw [hpred]
      exact (mem_npUnique _ _).mp hp_mem
    · intro z hz
      rw [hpred, hp_cnt]
      have hz_u : z ∈ npUnique zones := (mem_npUnique _ _).mpr hz
      have hm : countOf zones z ∈ (npUnique zones).map (countOf zones) :=
        List.mem_map_of_mem _ hz_u
      exact le_foldr_max _ _ hm
    · intro z hz hcnt
      have hz_u : z ∈ npUnique zones := (mem_npUnique _ _).mpr hz
      have hz_fil : z ∈ (npUnique zones).filter
          (fun v => countOf zones v == maxCount zones) :=
        List.mem_filter.mpr ⟨hz_u, by rw [hcnt, hpred, hp_cnt]; simp⟩
      rw [hfil] at hz_fil
      rcases List.mem_cons.mp hz_fil with h1 | h1
      · rw [hpred, h1]
        exact strLt_irrefl p
      · have hpair : (p :: rest).Pairwise (fun a b => strLt a b = true) :=
          hfil ▸ (pairwise_npUnique zones).filter _
        have hpz := (List.pairwise_cons.mp hpair).1 z h1
        rw [hpred]
        exact strLt_asymm p z hpz

theorem npUnique_const (zones : List Str) (z : Str)
    (h : ∀ y ∈ zones, y = z) (hne : zones ≠ []) : npUnique zones = [z] := by
  induction zones with
  | nil => exact absurd rfl hne
  | cons x xs ih =>
    have hx : x = z := h x (List.mem_cons_self _ _)
    show insertUnique x (npUnique xs) = [z]
    cases xs with
    | nil =>
      simp [npUnique, insertUnique, hx]
    | cons w ws =>
      have hxs := ih (fun y hy => h y (List.mem_cons_of_mem _ hy)) (by simp)
      rw [hxs, hx, insertUnique, if_pos rfl]

/-- When every zone in a non-empty stack equals `z`, the majority pick is
`z`. -/
theorem predominant_utm_const (zones : List Str) (z : Str)
    (h : ∀ y ∈ zones, y = z) (hne : zones ≠ []) :
    predominant_utm zones = z := by
  have hnu := npUnique_const zones z h hne
  have hmax : maxCount zones = countOf zones z := by
    rw [maxCount, hnu]
    simp
  rw [predominant_utm, hnu]
  simp [hmax]

/-- A raster file as the Coordinate Normalizer sees it: its location under
`rtc_products/` and the coordinate-system identifier (authority and code)
that cell 47 reads from the embedded metadata of the file (external
`gdal.Info`, parsed out of the WKT text). -/
structure Tiff where
  product : Str
  name : Str
  zone : Str
  typ : Str
deriving DecidableEq

def samePath (a b : Tiff) : Bool :=
  a.product == b.product && a.name == b.name

/-- Cell 51:
`reproject_indicies = [i for i, j in enumerate(utm_zones) if j != predominant_utm]`. -/
def reproject_indicies (utm_zones : List Str) (pred : Str) : List Nat :=
  (utm_zones.enum.filter (fun x => !(x.2 == pred))).map (fun x => x.1)

/-- Cell 51 body for one outlier file: `gdalwarp -overwrite src dst` writes
`r<tiff_name>` next to the source (when the external call succeeds — the
notebook does not check), then `rm <src>` runs unconditionally. -/
def gdalwarp_step (ok : Bool) (pred : Str) (src : Tiff) (fs : List Tiff) :
    List Tiff :=
  let dst : Tiff := ⟨src.product, str "r" ++ src.name, pred, str "EPSG"⟩
  let fs1 := if ok then (fs.filter (fun t => !(samePath t dst))) ++ [dst]
    else fs
  fs1.filter (fun t => !(samePath t src))

/-- Cell 51 loop: visit exactly the files whose zone differs from the
target (the files at `reproject_indicies`, i.e. the enumeration filter). -/
def reproject_loop (ok : Tiff → Bool) (pred : Str) (tiffs : List Tiff)
    (fs : List Tiff) : List Tiff :=
  (tiffs.filter (fun t => !(t.zone == pred))).foldl
    (fun acc t => gdalwarp_step (ok t) pred t acc) fs

/-- A job of the remote processing service, with the fields the notebook
consumes. -/
structure Job where
  running : Bool
  expired : Bool
  job_type : Str

/-- Cell 16 filter chain.  The first two filters are the external hyp3
client's `filter_jobs(running=False, include_expired=False)` — modelled from
the spec ("filters by status/date"; "no unexpired RTC products") as keeping
the finished, unexpired jobs; the final comprehension
`[job for job in jobs if job.job_type.startswith('RTC')]` is cell 16
itself. -/
def filter_jobs (jobs : List Job) : List Job :=
  (jobs.filter (fun j => !j.running && !j.expired)).filter
    (fun j => (str "RTC").isPrefixOf j.job_type)

/-- Cell 16: `if len(jobs) < 1: raise ValueError(...)`. -/
def check_rtc_products (jobs : List Job) : Except Str (List Job) :=
  if jobs.length < 1 then
    Except.error (str "There are no unexpired RTC products for this project. Select a different project or rerun your jobs in Vertex.")
  else Except.ok jobs

/-- C8: when the filtered job list contains no unexpired RTC products for
the selected project, the pipeline raises a fatal error whose diagnostic
tells the user to select a different project, rather than continuing. -/
theorem C8_no_products_fatal (jobs : List Job)
    (h : filter_jobs jobs = []) :
    check_rtc_products (filter_jobs jobs)
      = Except.error (str "There are no unexpired RTC products for this project. Select a different project or rerun your jobs in Vertex.") := by
  rw [h]
  rfl

/-- Witness for C8: a project whose jobs are all running, expired, or not
RTC jobs filters to the empty list and trips the fatal check. -/
theorem C8_no_products_fatal_witness :
    filter_jobs [⟨true, false, str "RTC_GAMMA"⟩, ⟨false, true, str "RTC_GAMMA"⟩,
        ⟨false, false, str "INSAR_GAMMA"⟩] = [] ∧
    check_rtc_products (filter_jobs [⟨true, false, str "RTC_GAMMA"⟩,
        ⟨false, true, str "RTC_GAMMA"⟩, ⟨false, false, str "INSAR_GAMMA"⟩])
      = Except.error (str "There are no unexpired RTC products for this project. Select a different project or rerun your jobs in Vertex.") :=
  ⟨by rfl, C8_no_products_fatal _ (by rfl)⟩

/-- C4 (code bug): cell 51 runs `rm` on the original raster unconditionally
after the `gdalwarp` call; when the warp fails and produces no reprojected
replacement, the original file is deleted anyway, leaving nothing.  The
claim (and section 4.1 of the design, which calls the missing exit-status
check a latent defect) requires the original to survive a failed warp. -/
theorem C4_warp_failure_still_deletes_original :
    gdalwarp_step false (str "32611")
      ⟨str "S1A_PROD", str "S1A_20210101T000000_VV.tif", str "32610", str "EPSG"⟩
      [⟨str "S1A_PROD", str "S1A_20210101T000000_VV.tif", str "32610", str "EPSG"⟩]
      = [] := by
  rfl

/-- C5 (code bug): cell 63 deletes every contributing input of a merge
candidate date without checking the `gdal_merge.py` result; when the mosaic
fails and no output raster is produced, both inputs are removed and nothing
remains for that date, and the loop continues rather than aborting.  The
claim (and section 4.2's failure-mode note) requires the sources to survive
a failed mosaic. -/
theorem C5_mosaic_failure_still_deletes_inputs :
    merge_dup_date false
      [str "rtc_products/P1/S1A_20210101T000000_VV.tif",
       str "rtc_products/P2/S1B_20210101T010000_VV.tif"]
      (str "20210101")
      [str "rtc_products/P1/S1A_20210101T000000_VV.tif",
       str "rtc_products/P2/S1B_20210101T010000_VV.tif"]
      = [] := by
  decide

/-- C3 counterexample: cell 49 tallies the zone codes alone
(`np.unique(utm_zones)`); the authorities of cell 47 are never tallied.  On
a stack whose (authority, code) pairs are
(A,11), (A,11), (B,10), (C,10), (C,10) the per-pair tally of the claim
selects code 11 (the pair (A,11) with count 2 wins, first among the
maximal pairs in the unique-pair enumeration), while the code's per-code
tally selects 10 (count 3). -/
theorem C3_pair_tally_counterexample :
    predominant_utm [str "11", str "11", str "10", str "10", str "10"]
      = str "10" ∧
    (predominant_pair [str "A", str "A", str "B", str "C", str "C"]
      [str "11", str "11", str "10", str "10", str "10"]).2 = str "11" ∧
    (predominant_pair [str "A", str "A", str "B", str "C", str "C"]
      [str "11", str "11", str "10", str "10", str "10"]).2
      ≠ predominant_utm [str "11", str "11", str "10", str "10", str "10"] := by
  refine ⟨by decide, by decide, ?_⟩
  intro h
  revert h
  decide

/-- C3 amended: in UTM mode the Coordinate Normalizer chooses the target
system by tallying occurrences per unique zone code over all raster files
(the authority is ignored), and selects a code of maximal count; ties break
to the first code in `np.unique`'s sorted unique-code enumeration, i.e. the
lexicographically smallest maximal-count code. -/
theorem C3_utm_majority_selection (utm_zones : List Str)
    (h : utm_zones ≠ []) :
    predominant true utm_zones ∈ utm_zones ∧
    (∀ z ∈ utm_zones,
      countOf utm_zones z ≤ countOf utm_zones (predominant true utm_zones)) ∧
    (∀ z ∈ utm_zones,
      countOf utm_zones z = countOf utm_zones (predominant true utm_zones) →
      strLt z (predominant true utm_zones) = false) := by
  have hp : predominant true utm_zones = predominant_utm utm_zones := rfl
  rw [hp]
  exact predominant_utm_spec utm_zones h

/-- Witness for the amended C3 on a concrete stack with a tie-free majority
and a lexicographic tie-break workout. -/
theorem C3_utm_majority_selection_witness :
    ([str "32610", str "32609", str "32609"] : List Str) ≠ [] ∧
    (predominant true [str "32610", str "32609", str "32609"]
        ∈ [str "32610", str "32609", str "32609"] ∧
      (∀ z ∈ [str "32610", str "32609", str "32609"],
        countOf [str "32610", str "32609", str "32609"] z
          ≤ countOf [str "32610", str "32609", str "32609"]
            (predominant true [str "32610", str "32609", str "32609"])) ∧
      (∀ z ∈ [str "32610", str "32609", str "32609"],
        countOf [str "32610", str "32609", str "32609"] z
          = countOf [str "32610", str "32609", str "32609"]
            (predominant true [str "32610", str "32609", str "32609"]) →
        strLt z (predominant true [str "32610", str "32609", str "32609"])
          = false)) :=
  ⟨by decide, C3_utm_majority_selection _ (by decide)⟩

theorem warp_foldl_keeps (ok : Tiff → Bool) (pred : Str) (t : Tiff) :
    ∀ (l : List Tiff) (fs : List Tiff), t ∈ fs →
    (∀ s ∈ l, samePath t s = false ∧
      samePath t ⟨s.product, str "r" ++ s.name, pred, str "EPSG"⟩ = false) →
    t ∈ l.foldl (fun acc s => gdalwarp_step (ok s) pred s acc) fs := by
  intro l
  induction l with
  | nil =>
    intro fs hfs _
    exact hfs
  | cons s l ih =>
    intro fs hfs hl
    rw [List.foldl_cons]
    obtain ⟨hts, htd⟩ := hl s (List.mem_cons_self _ _)
    apply ih
    · rw [gdalwarp_step]
      apply List.mem_filter.mpr
      refine ⟨?_, by rw [hts]; rfl⟩
      cases hok : ok s with
      | true =>
        rw [if_pos rfl]
        exact List.mem_append_left _ (List.mem_filter.mpr ⟨hfs, by rw [htd]; rfl⟩)
      | false =>
        rw [if_neg (by simp)]
        exact hfs
    · exact fun s' hs' => hl s' (List.mem_cons_of_mem _ hs')

/-- C6: the Coordinate Normalizer reprojects exactly the files whose
coordinate system differs from the target: (1) cell 51's
`reproject_indicies` selects exactly the positions whose zone differs from
the target; (2) a file already in the target system survives the loop
untouched, provided no outlier shares its path and no outlier's `r`-prefixed
warp output collides with it; (3) in UTM mode, when every file already
shares one system, the majority is that system, the index list is empty,
and the loop leaves the filesystem byte-for-byte unchanged. -/
theorem C6_normalizer_reprojects_exactly_outliers
    (tiffs : List Tiff) (ok : Tiff → Bool) :
    (∀ (pred : Str) (i : Nat),
      i ∈ reproject_indicies (tiffs.map Tiff.zone) pred ↔
        ∃ z, (tiffs.map Tiff.zone)[i]? = some z ∧ z ≠ pred) ∧
    (∀ (pred : Str) (t : Tiff) (fs : List Tiff), t ∈ fs → t.zone = pred →
      (∀ s ∈ tiffs, s.zone ≠ pred → samePath t s = false) →
      (∀ s ∈ tiffs,
        samePath t ⟨s.product, str "r" ++ s.name, pred, str "EPSG"⟩ = false) →
      t ∈ reproject_loop ok pred tiffs fs) ∧
    (∀ z, (∀ t ∈ tiffs, t.zone = z) → tiffs ≠ [] →
      predominant true (tiffs.map Tiff.zone) = z ∧
      reproject_indicies (tiffs.map Tiff.zone)
        (predominant true (tiffs.map Tiff.zone)) = [] ∧
      reproject_loop ok (predominant true (tiffs.map Tiff.zone)) tiffs tiffs
        = tiffs) := by
  refine ⟨?_, ?_, ?_⟩
  · intro pred i
    rw [reproject_indicies]
    simp only [List.mem_map, List.mem_filter]
    constructor
    · rintro ⟨⟨j, z⟩, ⟨hmem, hz⟩, rfl⟩
      refine ⟨z, List.mem_enum_iff_getElem?.mp hmem, ?_⟩
      simpa using hz
    · rintro ⟨z, hz, hne⟩
      exact ⟨(i, z), ⟨List.mem_enum_iff_getElem?.mpr hz, by simpa using hne⟩,
        rfl⟩
  · intro pred t fs hfs htz hpaths hrfresh
    rw [reproject_loop]
    apply warp_foldl_keeps ok pred t _ fs hfs
    intro s hs
    have hsz : s.zone ≠ pred := by
      have := (List.mem_filter.mp hs).2
      simpa using this
    exact ⟨hpaths s (List.mem_of_mem_filter hs) hsz,
      hrfresh s (List.mem_of_mem_filter hs)⟩
  · intro z hall hne
    have hzs_ne : tiffs.map Tiff.zone ≠ [] := by
      simpa using hne
    have hzall : ∀ y ∈ tiffs.map Tiff.zone, y = z := by
      intro y hy
      rw [List.mem_map] at hy
      obtain ⟨t, ht, rfl⟩ := hy
      exact hall t ht
    have hpz : predominant true (tiffs.map Tiff.zone) = z := by
      show predominant_utm (tiffs.map Tiff.zone) = z
      exact predominant_utm_const _ z hzall hzs_ne
    refine ⟨hpz, ?_, ?_⟩
    · rw [hpz, reproject_indicies]
      have hfil : (tiffs.map Tiff.zone).enum.filter (fun x => !(x.2 == z))
          = [] := by
        rw [List.filter_eq_nil]
        rintro ⟨j, y⟩ hmem
        have hy : y ∈ tiffs.map Tiff.zone := by
          have := List.mem_enum_iff_getElem?.mp hmem
          exact List.getElem?_mem this
        simp [hzall y hy]
      rw [hfil]
      rfl
    · rw [hpz, reproject_loop]
      have hfil : tiffs.filter (fun t => !(t.zone == z)) = [] := by
        rw [List.filter_eq_nil]
        intro t ht
        simp [hall t ht]
      rw [hfil]
      rfl

/-- Witness for C6 on a concrete two-file stack sharing one UTM zone: the
majority is that zone and the loop changes nothing. -/
theorem C6_normalizer_witness :
    predominant true
      (([⟨str "P1", str "a_20210101T000000_VV.tif", str "32610", str "EPSG"⟩,
         ⟨str "P2", str "b_20210105T000000_VV.tif", str "32610", str "EPSG"⟩]
        : List Tiff).map Tiff.zone) = str "32610" ∧
    reproject_indicies
      (([⟨str "P1", str "a_20210101T000000_VV.tif", str "32610", str "EPSG"⟩,
         ⟨str "P2", str "b_20210105T000000_VV.tif", str "32610", str "EPSG"⟩]
        : List Tiff).map Tiff.zone)
      (predominant true
        (([⟨str "P1", str "a_20210101T000000_VV.tif", str "32610", str "EPSG"⟩,
           ⟨str "P2", str "b_20210105T000000_VV.tif", str "32610", str "EPSG"⟩]
          : List Tiff).map Tiff.zone)) = [] ∧
    reproject_loop (fun _ => true)
      (predominant true
        (([⟨str "P1", str "a_20210101T000000_VV.tif", str "32610", str "EPSG"⟩,
           ⟨str "P2", str "b_20210105T000000_VV.tif", str "32610", str "EPSG"⟩]
          : List Tiff).map Tiff.zone))
      [⟨str "P1", str "a_20210101T000000_VV.tif", str "32610", str "EPSG"⟩,
       ⟨str "P2", str "b_20210105T000000_VV.tif", str "32610", str "EPSG"⟩]
      [⟨str "P1", str "a_20210101T000000_VV.tif", str "32610", str "EPSG"⟩,
       ⟨str "P2", str "b_20210105T000000_VV.tif", str "32610", str "EPSG"⟩]
      = [⟨str "P1", str "a_20210101T000000_VV.tif", str "32610", str "EPSG"⟩,
         ⟨str "P2", str "b_20210105T000000_VV.tif", str "32610", str "EPSG"⟩] :=
  (C6_normalizer_reprojects_exactly_outliers _ (fun _ => true)).2.2
    (str "32610") (by decide) (by decide)

theorem countOf_eq_count (l : List Str) (x : Str) :
    countOf l x = List.count x l := by
  rw [countOf, List.count_eq_countP, List.countP_eq_length_filter]

theorem mem_dup_dates (dates : List Str) (d : Str) :
    d ∈ dup_dates dates ↔ 1 < countOf dates d := by
  rw [dup_dates]
  constructor
  · intro h
    have := (List.mem_filter.mp h).2
    simpa using this
  · intro h
    apply List.mem_filter.mpr
    refine ⟨?_, by simpa using h⟩
    rw [List.mem_dedup, ← List.count_pos_iff_mem, ← countOf_eq_count]
    omega

theorem nodup_dup_dates (dates : List Str) : (dup_dates dates).Nodup :=
  (List.nodup_dedup dates).filter _

/-- A path that is never an input nor a created output of any candidate
date survives the channel merge loop. -/
theorem merge_channel_keeps (ok : Str → Bool) (ps : List Str) (p : Str) :
    ∀ (dl : List Str) (fs : List Str), p ∈ fs →
    (∀ d ∈ dl, p ∉ merge_inputs ps d ∧ p ≠ merge_created ps d) →
    p ∈ merge_channel ok ps dl fs := by
  intro dl
  induction dl with
  | nil =>
    intro fs hfs _
    exact hfs
  | cons d dl ih =>
    intro fs hfs hdl
    obtain ⟨hin, hout⟩ := hdl d (List.mem_cons_self _ _)
    have hstep : p ∈ merge_dup_date (ok d) ps d fs := by
      rw [merge_dup_date, foldl_filter_erase]
      apply List.mem_filter.mpr
      have hcont : (merge_inputs ps d).contains p = false := by
        rcases hc : (merge_inputs ps d).contains p with _ | _
        · rfl
        · exact absurd (List.elem_iff.mp hc) hin
      refine ⟨?_, by rw [hcont]; rfl⟩
      cases hok : ok d with
      | true =>
        rw [if_pos rfl]
        apply List.mem_append_left
        apply List.mem_filter.mpr
        refine ⟨hfs, ?_⟩
        simpa using hout
      | false =>
        rw [if_neg (by simp)]
        exact hfs
    have hpeel : merge_channel ok ps (d :: dl) fs
        = merge_channel ok ps dl (merge_dup_date (ok d) ps d fs) := by
      simp [merge_channel]
    rw [hpeel]
    exact ih _ hstep (fun d' hd' => hdl d' (List.mem_cons_of_mem _ hd'))

/-- C1 amended: the Merger performs no action on a date with exactly one
raster file in the combined duplicate-detection list (the file list cell 44
collects across all selected channels): such a date is not a merge
candidate, no invoked mosaic consumes a file of that date, and its raster
survives the channel merge loop.  In single-channel mode this combined list
is the channel itself, so the claim as stated holds there; in dual-channel
mode the combined count — not the per-channel count — is what must equal
one (see the counterexample). -/
theorem C1_single_file_untouched
    (fs : List Str) (chan : Str) (d : Str) (ok : Str → Bool)
    (hcount : countOf (get_dates fs) d = 1)
    (hwf : ∀ p ∈ get_tiff_paths [chan] fs, wfPath p = true)
    (hfresh : ∀ d' ∈ dup_dates (get_dates fs),
      merge_created (get_tiff_paths [chan] fs) d'
        ∉ get_tiff_paths [chan] fs) :
    d ∉ dup_dates (get_dates fs) ∧
    (∀ call ∈ mosaic_calls (get_tiff_paths [chan] fs)
        (dup_dates (get_dates fs)), ∀ p ∈ call.2, dateOf p ≠ d) ∧
    (∀ p ∈ get_tiff_paths [chan] fs, dateOf p = d →
      p ∈ merge_channel ok (get_tiff_paths [chan] fs)
        (dup_dates (get_dates fs)) (get_tiff_paths [chan] fs)) := by
  have hnotdup : d ∉ dup_dates (get_dates fs) := by
    intro h
    have := (mem_dup_dates _ _).mp h
    omega
  refine ⟨hnotdup, ?_, ?_⟩
  · intro call hcall p hp
    rw [mosaic_calls, List.mem_map] at hcall
    obtain ⟨d', hd', rfl⟩ := hcall
    have hinp : p ∈ merge_inputs (get_tiff_paths [chan] fs) d' := hp
    rw [merge_inputs_eq _ _ hwf] at hinp
    have hpd : dateOf p = d' := by
      simpa using (List.mem_filter.mp hinp).2
    intro he
    rw [he] at hpd
    exact hnotdup (hpd ▸ hd')
  · intro p hp hpd
    apply merge_channel_keeps ok _ p _ _ hp
    intro d' hd'
    constructor
    · intro hinp
      rw [merge_inputs_eq _ _ hwf] at hinp
      have : dateOf p = d' := by
        simpa using (List.mem_filter.mp hinp).2
      rw [hpd] at this
      exact hnotdup (this ▸ hd')
    · intro he
      exact hfresh d' hd' (he ▸ hp)

/-- Witness for the amended C1: a single-channel stack where date 20210101
has one file and date 20210105 has two; the 20210101 file is untouched. -/
theorem C1_single_file_untouched_witness :
    countOf (get_dates [str "rtc_products/PA/S1A_20210101T000000_VV.tif",
      str "rtc_products/PB/S1B_20210105T000000_VV.tif",
      str "rtc_products/PC/S1C_20210105T010000_VV.tif"]) (str "20210101") = 1 ∧
    (str "20210101" ∉ dup_dates (get_dates
        [str "rtc_products/PA/S1A_20210101T000000_VV.tif",
         str "rtc_products/PB/S1B_20210105T000000_VV.tif",
         str "rtc_products/PC/S1C_20210105T010000_VV.tif"]) ∧
      (∀ call ∈ mosaic_calls
          (get_tiff_paths [str "VV"]
            [str "rtc_products/PA/S1A_20210101T000000_VV.tif",
             str "rtc_products/PB/S1B_20210105T000000_VV.tif",
             str "rtc_products/PC/S1C_20210105T010000_VV.tif"])
          (dup_dates (get_dates
            [str "rtc_products/PA/S1A_20210101T000000_VV.tif",
             str "rtc_products/PB/S1B_20210105T000000_VV.tif",
             str "rtc_products/PC/S1C_20210105T010000_VV.tif"])),
        ∀ p ∈ call.2, dateOf p ≠ str "20210101") ∧
      (∀ p ∈ get_tiff_paths [str "VV"]
          [str "rtc_products/PA/S1A_20210101T000000_VV.tif",
           str "rtc_products/PB/S1B_20210105T000000_VV.tif",
           str "rtc_products/PC/S1C_20210105T010000_VV.tif"],
        dateOf p = str "20210101" →
        p ∈ merge_channel (fun _ => true)
          (get_tiff_paths [str "VV"]
            [str "rtc_products/PA/S1A_20210101T000000_VV.tif",
             str "rtc_products/PB/S1B_20210105T000000_VV.tif",
             str "rtc_products/PC/S1C_20210105T010000_VV.tif"])
          (dup_dates (get_dates
            [str "rtc_products/PA/S1A_20210101T000000_VV.tif",
             str "rtc_products/PB/S1B_20210105T000000_VV.tif",
             str "rtc_products/PC/S1C_20210105T010000_VV.tif"]))
          (get_tiff_paths [str "VV"]
            [str "rtc_products/PA/S1A_20210101T000000_VV.tif",
             str "rtc_products/PB/S1B_20210105T000000_VV.tif",
             str "rtc_products/PC/S1C_20210105T010000_VV.tif"]))) :=
  ⟨by decide, C1_single_file_untouched _ _ _ _ (by decide) (by decide)
    (by decide)⟩

/-- C1 counterexample (dual-channel mode): date 20210101 has exactly one
raster file per channel (one VV, one VH), yet because cell 59 counts dates
over the combined list the date's count is 2 and it becomes a merge
candidate; cell 63 then invokes a mosaic over the single VV file and
deletes it, so the file does not survive unchanged. -/
theorem C1_dual_mode_counterexample :
    countOf (get_dates
      [str "rtc_products/SA/S1A_20210101T000000_VV.tif",
       str "rtc_products/SA/S1A_20210101T000000_VH.tif"]) (str "20210101")
      = 2 ∧
    get_tiff_paths [str "VV"]
      [str "rtc_products/SA/S1A_20210101T000000_VV.tif",
       str "rtc_products/SA/S1A_20210101T000000_VH.tif"]
      = [str "rtc_products/SA/S1A_20210101T000000_VV.tif"] ∧
    dup_dates (get_dates
      [str "rtc_products/SA/S1A_20210101T000000_VV.tif",
       str "rtc_products/SA/S1A_20210101T000000_VH.tif"])
      = [str "20210101"] ∧
    mosaic_calls
      (get_tiff_paths [str "VV"]
        [str "rtc_products/SA/S1A_20210101T000000_VV.tif",
         str "rtc_products/SA/S1A_20210101T000000_VH.tif"])
      (dup_dates (get_dates
        [str "rtc_products/SA/S1A_20210101T000000_VV.tif",
         str "rtc_products/SA/S1A_20210101T000000_VH.tif"])) ≠ [] ∧
    str "rtc_products/SA/S1A_20210101T000000_VV.tif"
      ∉ merge_channel (fun _ => true)
        (get_tiff_paths [str "VV"]
          [str "rtc_products/SA/S1A_20210101T000000_VV.tif",
           str "rtc_products/SA/S1A_20210101T000000_VH.tif"])
        (dup_dates (get_dates
          [str "rtc_products/SA/S1A_20210101T000000_VV.tif",
           str "rtc_products/SA/S1A_20210101T000000_VH.tif"]))
        (get_tiff_paths [str "VV"]
          [str "rtc_products/SA/S1A_20210101T000000_VV.tif",
           str "rtc_products/SA/S1A_20210101T000000_VH.tif"]) := by
  decide

theorem countOf_le_one_of_nodup (l : List Str) (h : l.Nodup) (d : Str) :
    countOf l d ≤ 1 := by
  induction l with
  | nil => simp [countOf]
  | cons x xs ih =>
    rcases List.nodup_cons.mp h with ⟨hx, hxs⟩
    rw [countOf, List.filter_cons]
    by_cases hxd : (x == d) = true
    · rw [if_pos hxd]
      have hxd2 : x = d := by simpa using hxd
      have hzero : xs.filter (fun y => y == d) = [] := by
        rw [List.filter_eq_nil]
        intro a ha had
        have ha2 : a = d := by simpa using had
        exact hx (by rw [hxd2, ← ha2]; exact ha)
      rw [hzero]
      simp
    · rw [if_neg hxd]
      exact ih hxs

/-- C7 amended: when every date in the duplicate-detection list occurs once
— which is what the Merger's own output looks like in single-channel mode,
and in dual-channel mode only when no date has files in both channels — a
second run finds no candidates, invokes no mosaic, and changes no file. -/
theorem C7_second_run_noop (fs ps : List Str) (ok : Str → Bool)
    (hnd : (get_dates fs).Nodup) :
    dup_dates (get_dates fs) = [] ∧
    mosaic_calls ps (dup_dates (get_dates fs)) = [] ∧
    merge_channel ok ps (dup_dates (get_dates fs)) fs = fs := by
  have hdup : dup_dates (get_dates fs) = [] := by
    rw [dup_dates, List.filter_eq_nil]
    intro d _
    have hc : countOf (get_dates fs) d ≤ 1 :=
      countOf_le_one_of_nodup _ hnd d
    simp only [decide_eq_true_eq]
    omega
  rw [hdup]
  exact ⟨rfl, rfl, rfl⟩

/-- Witness for the amended C7: a single-channel post-merge stack (one
merged `new` raster, one untouched raster, distinct dates) is left alone. -/
theorem C7_second_run_noop_witness :
    (get_dates [str "rtc_products/PB/newS1B_20210105T000000_VV.tif",
      str "rtc_products/PA/S1A_20210101T000000_VV.tif"]).Nodup ∧
    (dup_dates (get_dates
        [str "rtc_products/PB/newS1B_20210105T000000_VV.tif",
         str "rtc_products/PA/S1A_20210101T000000_VV.tif"]) = [] ∧
      mosaic_calls [str "rtc_products/PB/newS1B_20210105T000000_VV.tif",
          str "rtc_products/PA/S1A_20210101T000000_VV.tif"]
        (dup_dates (get_dates
          [str "rtc_products/PB/newS1B_20210105T000000_VV.tif",
           str "rtc_products/PA/S1A_20210101T000000_VV.tif"])) = [] ∧
      merge_channel (fun _ => true)
        [str "rtc_products/PB/newS1B_20210105T000000_VV.tif",
         str "rtc_products/PA/S1A_20210101T000000_VV.tif"]
        (dup_dates (get_dates
          [str "rtc_products/PB/newS1B_20210105T000000_VV.tif",
           str "rtc_products/PA/S1A_20210101T000000_VV.tif"]))
        [str "rtc_products/PB/newS1B_20210105T000000_VV.tif",
         str "rtc_products/PA/S1A_20210101T000000_VV.tif"]
        = [str "rtc_products/PB/newS1B_20210105T000000_VV.tif",
           str "rtc_products/PA/S1A_20210101T000000_VV.tif"]) :=
  ⟨by decide, C7_second_run_noop _ _ _ (by decide)⟩

/-- C7 counterexample (dual-channel mode): against the Merger's own output
— one merged raster per channel for date 20210101 — a second run again
counts the date twice across the two channels, classifies it as a merge
candidate, invokes a mosaic, and deletes the channel's raster (recreating
it under a second `new` prefix): not a no-op. -/
theorem C7_dual_mode_not_idempotent :
    dup_dates (get_dates
      [str "rtc_products/SA/newS1A_20210101T000000_VV.tif",
       str "rtc_products/SA/newS1A_20210101T000000_VH.tif"])
      = [str "20210101"] ∧
    mosaic_calls
      (get_tiff_paths [str "VV"]
        [str "rtc_products/SA/newS1A_20210101T000000_VV.tif",
         str "rtc_products/SA/newS1A_20210101T000000_VH.tif"])
      (dup_dates (get_dates
        [str "rtc_products/SA/newS1A_20210101T000000_VV.tif",
         str "rtc_products/SA/newS1A_20210101T000000_VH.tif"])) ≠ [] ∧
    str "rtc_products/SA/newS1A_20210101T000000_VV.tif"
      ∉ merge_channel (fun _ => true)
        (get_tiff_paths [str "VV"]
          [str "rtc_products/SA/newS1A_20210101T000000_VV.tif",
           str "rtc_products/SA/newS1A_20210101T000000_VH.tif"])
        (dup_dates (get_dates
          [str "rtc_products/SA/newS1A_20210101T000000_VV.tif",
           str "rtc_products/SA/newS1A_20210101T000000_VH.tif"]))
        (get_tiff_paths [str "VV"]
          [str "rtc_products/SA/newS1A_20210101T000000_VV.tif",
           str "rtc_products/SA/newS1A_20210101T000000_VH.tif"]) := by
  decide

theorem countOf_cons (x : Str) (l : List Str) (d : Str) :
    countOf (x :: l) d = (if (x == d) = true then 1 else 0) + countOf l d := by
  rw [countOf, List.filter_cons]
  by_cases hx : (x == d) = true
  · rw [if_pos hx, if_pos hx, List.length_cons]
    rw [countOf]
    omega
  · rw [if_neg hx, if_neg hx]
    rw [countOf]
    omega

theorem get_tiff_paths_single (c : Str) (fs : List Str) :
    get_tiff_paths [c] fs = fs.filter (fun p => polarMatches c p) := by
  rw [get_tiff_paths]
  apply List.filter_congr
  intro p _
  simp [List.any]

theorem countOf_dates_split (fs : List Str) (d : Str)
    (h : ∀ p ∈ fs,
      (polarMatches (str "VV") p = true ∧ polarMatches (str "VH") p = false) ∨
      (polarMatches (str "VV") p = false ∧ polarMatches (str "VH") p = true)) :
    countOf (get_dates fs) d
      = countOf (get_dates (fs.filter (fun p => polarMatches (str "VV") p))) d
        + countOf (get_dates (fs.filter (fun p => polarMatches (str "VH") p))) d := by
  induction fs with
  | nil => simp [get_dates, countOf]
  | cons p fs ih =>
    have hrest := fun q hq => h q (List.mem_cons_of_mem p hq)
    have hdates : get_dates (p :: fs) = dateOf p :: get_dates fs := rfl
    rcases h p (List.mem_cons_self _ _) with ⟨h1, h2⟩ | ⟨h1, h2⟩
    · have hfVV : (p :: fs).filter (fun q => polarMatches (str "VV") q)
          = p :: fs.filter (fun q => polarMatches (str "VV") q) := by
        rw [List.filter_cons, if_pos h1]
      have hfVH : (p :: fs).filter (fun q => polarMatches (str "VH") q)
          = fs.filter (fun q => polarMatches (str "VH") q) := by
        rw [List.filter_cons, if_neg (by simp [h2])]
      rw [hdates, hfVV, hfVH]
      have hdVV : get_dates (p :: fs.filter (fun q => polarMatches (str "VV") q))
          = dateOf p :: get_dates (fs.filter (fun q => polarMatches (str "VV") q)) :=
        rfl
      rw [hdVV, countOf_cons, countOf_cons, ih hrest]
      omega
    · have hfVV : (p :: fs).filter (fun q => polarMatches (str "VV") q)
          = fs.filter (fun q => polarMatches (str "VV") q) := by
        rw [List.filter_cons, if_neg (by simp [h1])]
      have hfVH : (p :: fs).filter (fun q => polarMatches (str "VH") q)
          = p :: fs.filter (fun q => polarMatches (str "VH") q) := by
        rw [List.filter_cons, if_pos h2]
      rw [hdates, hfVV, hfVH]
      have hdVH : get_dates (p :: fs.filter (fun q => polarMatches (str "VH") q))
          = dateOf p :: get_dates (fs.filter (fun q => polarMatches (str "VH") q)) :=
        rfl
      rw [hdVH, countOf_cons, countOf_cons, ih hrest]
      omega

/-- C9: in dual-channel mode a date is a merge candidate iff the total count
of raster files bearing that date, summed over the two channels, exceeds
one (the combined glob of cell 44 collects both channels and cell 59 counts
over it); both channels receive identical copies of this candidate-date set
(the deep-copied mapping of cell 59); consequently a channel's candidate
set can include a date for which that channel has only one file. -/
theorem C9_dual_candidate_set (fs : List Str) (d : Str)
    (hsplit : ∀ p ∈ fs,
      (polarMatches (str "VV") p = true ∧ polarMatches (str "VH") p = false) ∨
      (polarMatches (str "VV") p = false ∧ polarMatches (str "VH") p = true)) :
    (d ∈ dup_dates (get_dates fs) ↔
      1 < countOf (get_dates (get_tiff_paths [str "VV"] fs)) d
          + countOf (get_dates (get_tiff_paths [str "VH"] fs)) d) ∧
    dup_date_batches true (get_dates fs)
      = [dup_dates (get_dates fs), dup_dates (get_dates fs)] ∧
    (str "20210101" ∈ dup_dates (get_dates
        [str "rtc_products/SB/S1B_20210101T000000_VV.tif",
         str "rtc_products/SB/S1B_20210101T000000_VH.tif"]) ∧
      countOf (get_dates (get_tiff_paths [str "VV"]
          [str "rtc_products/SB/S1B_20210101T000000_VV.tif",
           str "rtc_products/SB/S1B_20210101T000000_VH.tif"]))
        (str "20210101") = 1) := by
  refine ⟨?_, rfl, by decide⟩
  rw [mem_dup_dates, countOf_dates_split fs d hsplit,
    get_tiff_paths_single, get_tiff_paths_single]

/-- Witness for C9 on a concrete dual-polarization stack of one product. -/
theorem C9_dual_candidate_set_witness :
    (∀ p ∈ [str "rtc_products/SB/S1B_20210101T000000_VV.tif",
        str "rtc_products/SB/S1B_20210101T000000_VH.tif"],
      (polarMatches (str "VV") p = true ∧ polarMatches (str "VH") p = false) ∨
      (polarMatches (str "VV") p = false ∧ polarMatches (str "VH") p = true)) ∧
    ((str "20210101" ∈ dup_dates (get_dates
        [str "rtc_products/SB/S1B_20210101T000000_VV.tif",
         str "rtc_products/SB/S1B_20210101T000000_VH.tif"]) ↔
      1 < countOf (get_dates (get_tiff_paths [str "VV"]
            [str "rtc_products/SB/S1B_20210101T000000_VV.tif",
             str "rtc_products/SB/S1B_20210101T000000_VH.tif"]))
            (str "20210101")
          + countOf (get_dates (get_tiff_paths [str "VH"]
            [str "rtc_products/SB/S1B_20210101T000000_VV.tif",
             str "rtc_products/SB/S1B_20210101T000000_VH.tif"]))
            (str "20210101")) ∧
      dup_date_batches true (get_dates
          [str "rtc_products/SB/S1B_20210101T000000_VV.tif",
           str "rtc_products/SB/S1B_20210101T000000_VH.tif"])
        = [dup_dates (get_dates
            [str "rtc_products/SB/S1B_20210101T000000_VV.tif",
             str "rtc_products/SB/S1B_20210101T000000_VH.tif"]),
           dup_dates (get_dates
            [str "rtc_products/SB/S1B_20210101T000000_VV.tif",
             str "rtc_products/SB/S1B_20210101T000000_VH.tif"])] ∧
      (str "20210101" ∈ dup_dates (get_dates
          [str "rtc_products/SB/S1B_20210101T000000_VV.tif",
           str "rtc_products/SB/S1B_20210101T000000_VH.tif"]) ∧
        countOf (get_dates (get_tiff_paths [str "VV"]
            [str "rtc_products/SB/S1B_20210101T000000_VV.tif",
             str "rtc_products/SB/S1B_20210101T000000_VH.tif"]))
          (str "20210101") = 1)) :=
  ⟨by decide, C9_dual_candidate_set _ _ (by decide)⟩

theorem suffix_past_slash (t c S : Str) (hS : '/' ∉ S)
    (h : S <:+ t ++ '/' :: c) : S <:+ c := by
  have h2 : ('/' :: c) <:+ t ++ '/' :: c := List.suffix_append t ('/' :: c)
  rcases List.suffix_or_suffix_of_suffix h h2 with h3 | h3
  · rcases List.suffix_cons_iff.mp h3 with h4 | h4
    · rw [h4] at hS
      exact absurd (List.mem_cons_self _ _) hS
    · exact h4
  · exact absurd (h3.subset (List.mem_cons_self _ _)) hS

/-- C10: for every merge the Merger performs (a candidate date with a
non-empty contributing batch), the output raster path is formed by
prepending the literal `new` to the basename of the first contributing file,
placed in that file's product directory; the output path is not among the
contributing paths the deletion loop subsequently removes, and it survives
the merge step; its path parses to the first contributor's date token — the
candidate date itself — and it retains any slash-free polarization-pattern
suffix of the first contributor, so the later path collection, verification,
and finalization steps pick it up. -/
theorem C10_merge_output_path (ps : List Str) (d : Str)
    (hwf : ∀ p ∈ ps, wfPath p = true)
    (p₁ : Str) (rest : List Str)
    (hbatch : ps.filter (fun p => dateOf p == d) = p₁ :: rest)
    (hfresh : merge_created ps d ∉ ps) :
    (∃ b c, p₁ = str "rtc_products" ++ '/' :: (b ++ '/' :: c) ∧
      merge_created ps d
        = str "rtc_products" ++ '/' :: (b ++ '/' :: (str "new" ++ c))) ∧
    merge_created ps d ∉ merge_inputs ps d ∧
    merge_created ps d ∈ merge_dup_date true ps d ps ∧
    dateOf (merge_created ps d) = dateOf p₁ ∧
    dateOf (merge_created ps d) = d ∧
    (∀ polar, '/' ∉ polar → polarMatches polar p₁ = true →
      polarMatches polar (merge_created ps d) = true) := by
  obtain ⟨b, c, hpeq, hcr⟩ := merge_created_full ps d hwf p₁ rest hbatch
  have hne : ps.filter (fun p => dateOf p == d) ≠ [] := by
    rw [hbatch]
    simp
  have hnotin : merge_created ps d ∉ merge_inputs ps d := by
    intro hmem
    rw [merge_inputs_eq _ _ hwf] at hmem
    exact hfresh (List.mem_of_mem_filter hmem)
  have hd : dateOf (merge_created ps d) = d := merge_created_date ps d hwf hne
  have hd1 : dateOf p₁ = d := by
    have hmem : p₁ ∈ ps.filter (fun p => dateOf p == d) := by
      rw [hbatch]
      exact List.mem_cons_self _ _
    simpa using (List.mem_filter.mp hmem).2
  have hassoc1 : p₁ = (str "rtc_products" ++ '/' :: b) ++ '/' :: c := by
    rw [hpeq]
    simp
  have hassoc2 : merge_created ps d
      = (str "rtc_products" ++ '/' :: (b ++ '/' :: str "new")) ++ c := by
    rw [hcr]
    simp
  refine ⟨⟨b, c, hpeq, hcr⟩, hnotin, ?_, by rw [hd, hd1], hd, ?_⟩
  · rw [merge_dup_date, if_pos rfl, foldl_filter_erase]
    apply List.mem_filter.mpr
    have hcont : (merge_inputs ps d).contains (merge_created ps d) = false := by
      rcases hc : (merge_inputs ps d).contains (merge_created ps d) with _ | _
      · rfl
      · exact absurd (List.elem_iff.mp hc) hnotin
    exact ⟨List.mem_append_right _ (List.mem_singleton.mpr rfl),
      by rw [hcont]; rfl⟩
  · intro polar hpol hmatch
    have htransfer : ∀ S : Str, '/' ∉ S → endsWithStr p₁ S = true →
        endsWithStr (merge_created ps d) S = true := by
      intro S hS hsuf
      rw [endsWithStr_iff] at hsuf ⊢
      rw [hassoc1] at hsuf
      have hc2 : S <:+ c := suffix_past_slash _ c S hS hsuf
      rw [hassoc2]
      exact hc2.trans (List.suffix_append _ c)
    have hS1 : '/' ∉ '_' :: (polar ++ str ".tif") := by
      intro hmem
      rcases List.mem_cons.mp hmem with h | h
      · exact absurd h (by decide)
      · rcases List.mem_append.mp h with h | h
        · exact hpol h
        · revert h; decide
    have hS2 : '/' ∉ '_' :: (polar ++ str ".tiff") := by
      intro hmem
      rcases List.mem_cons.mp hmem with h | h
      · exact absurd h (by decide)
      · rcases List.mem_append.mp h with h | h
        · exact hpol h
        · revert h; decide
    rw [polarMatches] at hmatch ⊢
    rcases Bool.or_eq_true_iff.mp hmatch with h | h
    · rw [htransfer _ hS1 h]
      rfl
    · rw [htransfer _ hS2 h]
      simp

/-- Witness for C10 on a concrete two-file candidate date. -/
theorem C10_merge_output_path_witness :
    (∀ p ∈ [str "rtc_products/PX/S1A_20210107T000000_VH.tif",
        str "rtc_products/PY/S1B_20210107T010000_VH.tif"],
      wfPath p = true) ∧
    ([str "rtc_products/PX/S1A_20210107T000000_VH.tif",
        str "rtc_products/PY/S1B_20210107T010000_VH.tif"].filter
        (fun p => dateOf p == str "20210107")
      = [str "rtc_products/PX/S1A_20210107T000000_VH.tif",
         str "rtc_products/PY/S1B_20210107T010000_VH.tif"]) ∧
    ((∃ b c, str "rtc_products/PX/S1A_20210107T000000_VH.tif"
          = str "rtc_products" ++ '/' :: (b ++ '/' :: c) ∧
        merge_created [str "rtc_products/PX/S1A_20210107T000000_VH.tif",
            str "rtc_products/PY/S1B_20210107T010000_VH.tif"]
          (str "20210107")
          = str "rtc_products" ++ '/' :: (b ++ '/' :: (str "new" ++ c))) ∧
      merge_created [str "rtc_products/PX/S1A_20210107T000000_VH.tif",
          str "rtc_products/PY/S1B_20210107T010000_VH.tif"] (str "20210107")
        ∉ merge_inputs [str "rtc_products/PX/S1A_20210107T000000_VH.tif",
          str "rtc_products/PY/S1B_20210107T010000_VH.tif"] (str "20210107") ∧
      merge_created [str "rtc_products/PX/S1A_20210107T000000_VH.tif",
          str "rtc_products/PY/S1B_20210107T010000_VH.tif"] (str "20210107")
        ∈ merge_dup_date true
          [str "rtc_products/PX/S1A_20210107T000000_VH.tif",
           str "rtc_products/PY/S1B_20210107T010000_VH.tif"]
          (str "20210107")
          [str "rtc_products/PX/S1A_20210107T000000_VH.tif",
           str "rtc_products/PY/S1B_20210107T010000_VH.tif"] ∧
      dateOf (merge_created [str "rtc_products/PX/S1A_20210107T000000_VH.tif",
          str "rtc_products/PY/S1B_20210107T010000_VH.tif"] (str "20210107"))
        = dateOf (str "rtc_products/PX/S1A_20210107T000000_VH.tif") ∧
      dateOf (merge_created [str "rtc_products/PX/S1A_20210107T000000_VH.tif",
          str "rtc_products/PY/S1B_20210107T010000_VH.tif"] (str "20210107"))
        = str "20210107" ∧
      (∀ polar, '/' ∉ polar →
        polarMatches polar (str "rtc_products/PX/S1A_20210107T000000_VH.tif")
          = true →
        polarMatches polar
          (merge_created [str "rtc_products/PX/S1A_20210107T000000_VH.tif",
            str "rtc_products/PY/S1B_20210107T010000_VH.tif"]
            (str "20210107")) = true)) :=
  ⟨by decide, by decide,
    C10_merge_output_path
      [str "rtc_products/PX/S1A_20210107T000000_VH.tif",
       str "rtc_products/PY/S1B_20210107T010000_VH.tif"]
      (str "20210107") (by decide)
      (str "rtc_products/PX/S1A_20210107T000000_VH.tif")
      [str "rtc_products/PY/S1B_20210107T010000_VH.tif"]
      (by decide) (by decide)⟩

theorem countOf_map_dateOf (l : List Str) (d : Str) :
    countOf (get_dates l) d = (l.filter (fun p => dateOf p == d)).length := by
  rw [get_dates, countOf, ← List.countP_eq_length_filter,
    ← List.countP_eq_length_filter, List.countP_map]
  rfl

theorem countOf_dates_filter_le (fs : List Str) (g : Str → Bool) (d : Str) :
    countOf (get_dates (fs.filter g)) d ≤ countOf (get_dates fs) d := by
  induction fs with
  | nil => simp [get_dates, countOf]
  | cons p fs ih =>
    rw [List.filter_cons]
    by_cases hg : g p = true
    · rw [if_pos hg]
      have h1 : get_dates (p :: fs.filter g) = dateOf p :: get_dates (fs.filter g) := rfl
      have h2 : get_dates (p :: fs) = dateOf p :: get_dates fs := rfl
      rw [h1, h2, countOf_cons, countOf_cons]
      omega
    · rw [if_neg hg]
      have h2 : get_dates (p :: fs) = dateOf p :: get_dates fs := rfl
      rw [h2, countOf_cons]
      omega

theorem nodup_of_countOf_le_one (l : List Str) (h : ∀ d, countOf l d ≤ 1) :
    l.Nodup := by
  induction l with
  | nil => exact List.nodup_nil
  | cons x xs ih =>
    refine List.nodup_cons.mpr ⟨?_, ih (fun d => ?_)⟩
    · intro hx
      have hle := h x
      rw [countOf_cons, if_pos (by simp)] at hle
      have hpos : 0 < countOf xs x := by
        rw [countOf]
        apply List.length_pos.mpr
        intro hnil
        rw [List.filter_eq_nil] at hnil
        exact hnil x hx (by simp)
      omega
    · have hle := h d
      rw [countOf_cons] at hle
      omega

theorem map_created_filter_not (ps : List Str) (d : Str) :
    ∀ dl : List Str, (∀ d' ∈ dl, dateOf (merge_created ps d') = d') →
    d ∉ dl →
    (dl.map (merge_created ps)).filter (fun p => dateOf p == d) = [] := by
  intro dl
  induction dl with
  | nil => intro _ _; rfl
  | cons d0 dl ih =>
    intro hdd hd
    rw [List.map_cons, List.filter_cons,
      if_neg (by
        rw [hdd d0 (List.mem_cons_self _ _)]
        simp only [beq_iff_eq, decide_eq_true_eq]
        intro he
        exact hd (by rw [he]; exact List.mem_cons_self _ _))]
    exact ih (fun d' hd' => hdd d' (List.mem_cons_of_mem _ hd'))
      (fun hmem => hd (List.mem_cons_of_mem _ hmem))

theorem map_created_filter (ps : List Str) (d : Str) :
    ∀ dl : List Str, dl.Nodup →
    (∀ d' ∈ dl, dateOf (merge_created ps d') = d') →
    d ∈ dl →
    (dl.map (merge_created ps)).filter (fun p => dateOf p == d)
      = [merge_created ps d] := by
  intro dl
  induction dl with
  | nil => intro _ _ hd; simp at hd
  | cons d0 dl ih =>
    intro hnd hdd hd
    obtain ⟨hd0, hnd'⟩ := List.nodup_cons.mp hnd
    rcases List.mem_cons.mp hd with he | hmem
    · subst he
      rw [List.map_cons, List.filter_cons,
        if_pos (by rw [hdd d (List.mem_cons_self _ _)]; simp)]
      rw [map_created_filter_not ps d dl
        (fun d' hd' => hdd d' (List.mem_cons_of_mem _ hd')) hd0]
    · have hne0 : d ≠ d0 := fun he => hd0 (he ▸ hmem)
      rw [List.map_cons, List.filter_cons,
        if_neg (by
          rw [hdd d0 (List.mem_cons_self _ _)]
          simp only [beq_iff_eq, decide_eq_true_eq]
          exact fun he => hne0 he.symm)]
      exact ih hnd' (fun d' hd' => hdd d' (List.mem_cons_of_mem _ hd')) hmem

/-- C2: after the Duplicate-Date Merger runs a channel (with every mosaic
succeeding, well-formed snapshot paths, no pre-existing `new`-collisions,
and every candidate date having at least one file in the channel — the
configuration in which cell 63 runs without crashing), every date that had
files in the channel is represented by exactly one raster: each candidate
date ends with exactly its one created output and all its contributing
inputs removed, and cell 65's duplicate-date check on the resulting channel
listing verifies the post-condition (reports no duplicates) rather than
assuming it. -/
theorem C2_merger_postcondition (fs : List Str) (chan : Str) (ok : Str → Bool)
    (ps dl : List Str)
    (hps : ps = get_tiff_paths [chan] fs)
    (hdl : dl = dup_dates (get_dates fs))
    (hwf : ∀ p ∈ ps, wfPath p = true)
    (hne : ∀ d ∈ dl, ps.filter (fun p => dateOf p == d) ≠ [])
    (hfresh : ∀ d ∈ dl, merge_created ps d ∉ ps)
    (hok : ∀ d ∈ dl, ok d = true) :
    (∀ d ∈ dl, (merge_channel ok ps dl ps).filter (fun p => dateOf p == d)
        = [merge_created ps d] ∧
      ∀ p ∈ ps, dateOf p = d → p ∉ merge_channel ok ps dl ps) ∧
    (∀ d, ps.filter (fun p => dateOf p == d) ≠ [] →
      ((merge_channel ok ps dl ps).filter
        (fun p => dateOf p == d)).length = 1) ∧
    duplicate_dates_check (merge_channel ok ps dl ps) = false := by
  have hnd : dl.Nodup := by
    rw [hdl]
    exact nodup_dup_dates _
  have hdd : ∀ d ∈ dl, dateOf (merge_created ps d) = d := fun d hd =>
    merge_created_date ps d hwf (hne d hd)
  have hres : merge_channel ok ps dl ps
      = ps.filter (fun p => !(dl.contains (dateOf p)))
        ++ dl.map (merge_created ps) := by
    have h0 := merge_channel_closed ok ps hwf dl ps [] hnd (fun p hp => hp)
      (fun p hp => absurd hp (List.not_mem_nil p)) hne hfresh hok
    rw [List.append_nil] at h0
    rw [h0, List.append_nil]
  have hcontains_of_mem : ∀ d ∈ dl, dl.contains d = true := fun d hd =>
    List.elem_iff.mpr hd
  have hcontains_not : ∀ d, d ∉ dl → dl.contains d = false := by
    intro d hd
    rcases hc : dl.contains d with _ | _
    · rfl
    · exact absurd (List.elem_iff.mp hc) hd
  have hfilter_mem : ∀ d ∈ dl,
      (ps.filter (fun p => !(dl.contains (dateOf p)))).filter
        (fun p => dateOf p == d) = [] := by
    intro d hd
    rw [List.filter_filter, List.filter_eq_nil]
    intro q _ hconj
    rw [Bool.and_eq_true] at hconj
    obtain ⟨h1, h2⟩ := hconj
    have hqd : dateOf q = d := by simpa using h1
    rw [hqd, hcontains_of_mem d hd] at h2
    simp at h2
  have hfilter_notmem : ∀ d, d ∉ dl →
      (ps.filter (fun p => !(dl.contains (dateOf p)))).filter
        (fun p => dateOf p == d) = ps.filter (fun p => dateOf p == d) := by
    intro d hd
    rw [List.filter_filter]
    apply List.filter_congr
    intro q _
    by_cases hqd : (dateOf q == d) = true
    · have hq2 : dateOf q = d := by simpa using hqd
      rw [hqd, hq2, hcontains_not d hd]
      rfl
    · have hqf : (dateOf q == d) = false := by simpa using hqd
      rw [hqf]
      rfl
  have hch_le : ∀ d, d ∉ dl →
      (ps.filter (fun p => dateOf p == d)).length ≤ 1 := by
    intro d hd
    have hc1 := countOf_map_dateOf ps d
    have hc2 : countOf (get_dates ps) d ≤ countOf (get_dates fs) d := by
      rw [hps, get_tiff_paths]
      exact countOf_dates_filter_le fs _ d
    have hc3 : countOf (get_dates fs) d ≤ 1 := by
      by_contra hgt
      push_neg at hgt
      refine hd ?_
      rw [hdl]
      exact (mem_dup_dates _ _).mpr hgt
    omega
  refine ⟨?_, ?_, ?_⟩
  · intro d hd
    constructor
    · rw [hres, List.filter_append, hfilter_mem d hd,
        map_created_filter ps d dl hnd hdd hd]
      rfl
    · intro p hp hpd
      rw [hres]
      intro hmem
      rcases List.mem_append.mp hmem with hm | hm
      · have h2 := (List.mem_filter.mp hm).2
        rw [hpd, hcontains_of_mem d hd] at h2
        simp at h2
      · rw [List.mem_map] at hm
        obtain ⟨d', hd', he⟩ := hm
        exact hfresh d' hd' (he ▸ hp)
  · intro d hbne
    by_cases hd : d ∈ dl
    · rw [hres, List.filter_append, hfilter_mem d hd,
        map_created_filter ps d dl hnd hdd hd]
      rfl
    · rw [hres, List.filter_append, hfilter_notmem d hd,
        map_created_filter_not ps d dl hdd hd, List.append_nil]
      have hk1 : 0 < (ps.filter (fun p => dateOf p == d)).length :=
        List.length_pos.mpr hbne
      have hk2 := hch_le d hd
      omega
  · rw [duplicate_dates_check]
    have hnodup : (get_dates (merge_channel ok ps dl ps)).Nodup := by
      apply nodup_of_countOf_le_one
      intro d
      rw [countOf_map_dateOf]
      by_cases hd : d ∈ dl
      · rw [hres, List.filter_append, hfilter_mem d hd,
          map_created_filter ps d dl hnd hdd hd]
        simp
      · rw [hres, List.filter_append, hfilter_notmem d hd,
          map_created_filter_not ps d dl hdd hd, List.append_nil]
        exact hch_le d hd
    rw [List.dedup_eq_self.mpr hnodup]
    simp

/-- Witness for C2: a channel stack with a duplicated date (two files for
20210101) and a unique date (20210105); after merging, every date has
exactly one raster and the cell 65 check reports no duplicates. -/
theorem C2_merger_postcondition_witness :
    ([str "rtc_products/QA/S1A_20210101T000000_VV.tif",
      str "rtc_products/QB/S1B_20210101T010000_VV.tif",
      str "rtc_products/QC/S1C_20210105T000000_VV.tif"]
      = get_tiff_paths [str "VV"]
        [str "rtc_products/QA/S1A_20210101T000000_VV.tif",
         str "rtc_products/QB/S1B_20210101T010000_VV.tif",
         str "rtc_products/QC/S1C_20210105T000000_VV.tif"]) ∧
    ([str "20210101"] = dup_dates (get_dates
        [str "rtc_products/QA/S1A_20210101T000000_VV.tif",
         str "rtc_products/QB/S1B_20210101T010000_VV.tif",
         str "rtc_products/QC/S1C_20210105T000000_VV.tif"])) ∧
    ((∀ d ∈ [str "20210101"],
        (merge_channel (fun _ => true)
          [str "rtc_products/QA/S1A_20210101T000000_VV.tif",
           str "rtc_products/QB/S1B_20210101T010000_VV.tif",
           str "rtc_products/QC/S1C_20210105T000000_VV.tif"]
          [str "20210101"]
          [str "rtc_products/QA/S1A_20210101T000000_VV.tif",
           str "rtc_products/QB/S1B_20210101T010000_VV.tif",
           str "rtc_products/QC/S1C_20210105T000000_VV.tif"]).filter
            (fun p => dateOf p == d)
          = [merge_created
              [str "rtc_products/QA/S1A_20210101T000000_VV.tif",
               str "rtc_products/QB/S1B_20210101T010000_VV.tif",
               str "rtc_products/QC/S1C_20210105T000000_VV.tif"] d] ∧
        ∀ p ∈ [str "rtc_products/QA/S1A_20210101T000000_VV.tif",
            str "rtc_products/QB/S1B_20210101T010000_VV.tif",
            str "rtc_products/QC/S1C_20210105T000000_VV.tif"],
          dateOf p = d →
          p ∉ merge_channel (fun _ => true)
            [str "rtc_products/QA/S1A_20210101T000000_VV.tif",
             str "rtc_products/QB/S1B_20210101T010000_VV.tif",
             str "rtc_products/QC/S1C_20210105T000000_VV.tif"]
            [str "20210101"]
            [str "rtc_products/QA/S1A_20210101T000000_VV.tif",
             str "rtc_products/QB/S1B_20210101T010000_VV.tif",
             str "rtc_products/QC/S1C_20210105T000000_VV.tif"]) ∧
      (∀ d, ([str "rtc_products/QA/S1A_20210101T000000_VV.tif",
          str "rtc_products/QB/S1B_20210101T010000_VV.tif",
          str "rtc_products/QC/S1C_20210105T000000_VV.tif"].filter
          (fun p => dateOf p == d)) ≠ [] →
        ((merge_channel (fun _ => true)
          [str "rtc_products/QA/S1A_20210101T000000_VV.tif",
           str "rtc_products/QB/S1B_20210101T010000_VV.tif",
           str "rtc_products/QC/S1C_20210105T000000_VV.tif"]
          [str "20210101"]
          [str "rtc_products/QA/S1A_20210101T000000_VV.tif",
           str "rtc_products/QB/S1B_20210101T010000_VV.tif",
           str "rtc_products/QC/S1C_20210105T000000_VV.tif"]).filter
            (fun p => dateOf p == d)).length = 1) ∧
      duplicate_dates_check (merge_channel (fun _ => true)
        [str "rtc_products/QA/S1A_20210101T000000_VV.tif",
         str "rtc_products/QB/S1B_20210101T010000_VV.tif",
         str "rtc_products/QC/S1C_20210105T000000_VV.tif"]
        [str "20210101"]
        [str "rtc_products/QA/S1A_20210101T000000_VV.tif",
         str "rtc_products/QB/S1B_20210101T010000_VV.tif",
         str "rtc_products/QC/S1C_20210105T000000_VV.tif"]) = false) :=
  ⟨by decide, by decide,
    C2_merger_postcondition
      [str "rtc_products/QA/S1A_20210101T000000_VV.tif",
       str "rtc_products/QB/S1B_20210101T010000_VV.tif",
       str "rtc_products/QC/S1C_20210105T000000_VV.tif"]
      (str "VV") (fun _ => true)
      [str "rtc_products/QA/S1A_20210101T000000_VV.tif",
       str "rtc_products/QB/S1B_20210101T010000_VV.tif",
       str "rtc_products/QC/S1C_20210105T000000_VV.tif"]
      [str "20210101"]
      (by decide) (by decide) (by decide) (by decide) (by decide) (by decide)⟩
